import Mathlib

/-!
Verification of the dependency-identity resolution and reconciliation engine
of the dash-licenses wrapper repository.

JavaScript strings are modelled as `List Char` (`JStr`), JS `Map`s as
insertion-ordered association lists (`JsMap`), and the process-global
`Logger` as an explicit `LoggerState` threaded through the functions.
Each definition mirrors the corresponding TypeScript source function.
-/

set_option maxHeartbeats 1000000
set_option maxRecDepth 4000

abbrev JStr := List Char

def jstr (s : String) : JStr := s.toList

/-- Whitespace as matched by the JavaScript regex class `\s` (ASCII part plus
NBSP and BOM; the source only ever meets ASCII whitespace). -/
def isJsWs (c : Char) : Bool :=
  c = ' ' || c = '\t' || c = '\n' || c = '\r' ||
  c = '\x0b' || c = '\x0c' || c = ' ' || c = '﻿'

/-- JS `String.prototype.split` with a single-character separator:
keeps empty pieces, always returns at least one piece. -/
def splitOnChar (sep : Char) : JStr → List JStr
  | [] => [[]]
  | c :: rest =>
    match splitOnChar sep rest with
    | [] => [[]]
    | f :: fs => if c = sep then [] :: f :: fs else (c :: f) :: fs

/-- Helper for `splitLines`: drop one trailing carriage return. -/
def stripCR (s : JStr) : JStr :=
  if s.getLast? = some '\r' then s.dropLast else s

def splitLinesAux : List JStr → List JStr
  | [] => []
  | [f] => [f]
  | f :: g :: fs => stripCR f :: splitLinesAux (g :: fs)

/-- JS `split(/\r?\n/)`: split on newlines, a `\r` directly before a
consumed `\n` is consumed with it. -/
def splitLines (s : JStr) : List JStr :=
  splitLinesAux (splitOnChar '\n' s)

/-- JS `split(/,\s?/)`: split on commas, each comma consuming at most one
following whitespace character. -/
def splitCommaSpace : JStr → List JStr
  | [] => [[]]
  | c :: rest =>
    if c = ',' then
      match rest with
      | [] => [[], []]
      | d :: rest2 =>
        if isJsWs d then [] :: splitCommaSpace rest2
        else [] :: splitCommaSpace (d :: rest2)
    else
      match splitCommaSpace rest with
      | [] => [[c]]
      | f :: fs => (c :: f) :: fs

def dropLeadingWs : JStr → JStr
  | [] => []
  | c :: r => if isJsWs c then dropLeadingWs r else c :: r

/-- JS `String.prototype.trim`. -/
def jsTrim (s : JStr) : JStr :=
  ((dropLeadingWs ((dropLeadingWs s).reverse)).reverse)

def jStartsWith : JStr → JStr → Bool
  | _, [] => true
  | [], _ :: _ => false
  | c :: s, d :: p => c = d && jStartsWith s p

def natToJStr (n : Nat) : JStr := (Nat.repr n).toList

/-- A JS `Map` with string keys: an insertion-ordered association list;
`set` on an existing key updates the value in place. -/
structure JsMap (α : Type) where
  entries : List (JStr × α)
deriving DecidableEq

def lookupA {α : Type} : List (JStr × α) → JStr → Option α
  | [], _ => none
  | (k, v) :: rest, q => if k = q then some v else lookupA rest q

def setA {α : Type} : List (JStr × α) → JStr → α → List (JStr × α)
  | [], k, v => [(k, v)]
  | (k', v') :: rest, k, v =>
    if k' = k then (k', v) :: rest else (k', v') :: setA rest k v

def JsMap.get? {α : Type} (m : JsMap α) (k : JStr) : Option α := lookupA m.entries k

def JsMap.has {α : Type} (m : JsMap α) (k : JStr) : Bool := (m.get? k).isSome

def JsMap.set {α : Type} (m : JsMap α) (k : JStr) (v : α) : JsMap α :=
  ⟨setA m.entries k v⟩

def JsMap.size {α : Type} (m : JsMap α) : Nat := m.entries.length

def JsMap.empty {α : Type} : JsMap α := ⟨[]⟩

/-- `LicenseInfo` from src/document/index.ts. -/
structure LicenseInfo where
  License : JStr
  URL : Option JStr
deriving DecidableEq

/-- State of the process-global `Logger` (src/document/index.ts). -/
structure LoggerState where
  logs : JStr
  unresolvedNumber : Nat
deriving DecidableEq

def addLog (st : LoggerState) (l : JStr) : LoggerState :=
  { st with logs := st.logs ++ l }

def incrementUnresolved (st : LoggerState) : LoggerState :=
  { st with unresolvedNumber := st.unresolvedNumber + 1 }

/-! ### UTF-16 code-unit comparison, as used by JS `<` on strings and by
`Array.prototype.sort()` with the default comparator. -/

def charUtf16 (c : Char) : List Nat :=
  if c.toNat < 0x10000 then [c.toNat]
  else [0xD800 + (c.toNat - 0x10000) / 0x400, 0xDC00 + (c.toNat - 0x10000) % 0x400]

def utf16 (s : JStr) : List Nat := (s.map charUtf16).flatten

def ltNatList : List Nat → List Nat → Bool
  | [], [] => false
  | [], _ :: _ => true
  | _ :: _, [] => false
  | a :: as, b :: bs => if a < b then true else if b < a then false else ltNatList as bs

/-- JS string `<` (UTF-16 code-unit lexicographic order). -/
def ltUtf16 (a b : JStr) : Bool := ltNatList (utf16 a) (utf16 b)

/-- The ordering under which JS `Array.prototype.sort()` leaves a string
array sorted. -/
def strLe (a b : JStr) : Prop := ltUtf16 b a = false

instance : DecidablePred fun p : JStr × JStr => strLe p.1 p.2 := by
  intro p; unfold strLe; infer_instance

instance (a b : JStr) : Decidable (strLe a b) := by
  unfold strLe; infer_instance

def insertStr (x : JStr) : List JStr → List JStr
  | [] => [x]
  | y :: ys => if ltUtf16 y x then y :: insertStr x ys else x :: y :: ys

/-- Model of JS `Array.prototype.sort()` on an array of strings: the unique
sorted permutation under the code-unit order. -/
def jsSortStrings : List JStr → List JStr
  | [] => []
  | x :: xs => insertStr x (jsSortStrings xs)

/-! ### DependencyParser.parseDependenciesFile (src/document/index.ts)

The coordinate normalization shared by the license pass and the approval
pass (lines 116-142 and 160-190 of the source).  JS template interpolation
renders a missing array element as the string "undefined". -/

def templ (o : Option JStr) : JStr := o.getD (jstr "undefined")

/-- Scoped-package test `parts[scopeOrDashIndex] && parts[...].startsWith('@')`:
an absent or empty segment is falsy. -/
def segIsScope (o : Option JStr) : Bool :=
  match o with
  | some ('@' :: _) => true
  | _ => false

/-- Normalize a slash-split ledger coordinate to
`(scope, name, version, identifier)`; `none` when fewer than 5 segments
(the line is skipped). Handles the legacy `cq/` prefix by offsetting. -/
def normalizeParts (parts : List JStr) : Option (JStr × JStr × JStr × JStr) :=
  if parts.length ≥ 5 then
    let offset : Nat := if parts.head? = some (jstr "cq") then 1 else 0
    let sodi := 2 + offset
    if segIsScope (parts.get? sodi) then
      let scope := templ (parts.get? sodi)
      let name := templ (parts.get? (sodi + 1))
      let version := templ (parts.get? (sodi + 2))
      some (scope, name, version, scope ++ jstr "/" ++ name ++ jstr "@" ++ version)
    else
      let name := templ (parts.get? (sodi + 1))
      let version := templ (parts.get? (sodi + 2))
      some (jstr "-", name, version, name ++ jstr "@" ++ version)
  else
    none

/-- One step of the license pass (source lines 113-149): overwrite the
license record for the line's identifier. -/
def licenseStep (lm : JsMap LicenseInfo) (fields : List JStr) : JsMap LicenseInfo :=
  if fields.length ≥ 2 then
    let cqIdentifier := fields.getD 0 []
    let license := fields.getD 1 []
    match normalizeParts (splitOnChar '/' cqIdentifier) with
    | some (_, _, _, ident) =>
      lm.set ident ⟨if license ≠ [] then jsTrim license else [], none⟩
    | none => lm
  else lm

/-- State of the approval pass: the approval map, the local `log` string and
`numberUnusedExcludes`. -/
structure ApprState where
  m : JsMap JStr
  log : JStr
  n : Nat
deriving DecidableEq

def unusedEntry (k : Nat) (ident : JStr) : JStr :=
  jstr "\n" ++ natToJStr k ++ jstr ". `" ++ ident ++ jstr "`"

def clearlydefinedLink (scope name version : JStr) : JStr :=
  jstr "[clearlydefined](https://clearlydefined.io/definitions/npm/npmjs/" ++
    scope ++ jstr "/" ++ name ++ jstr "/" ++ version ++ jstr ")"

/-- One step of the approval pass (source lines 157-205). -/
def approvalStep (st : ApprState) (fields : List JStr) : ApprState :=
  if fields.length ≥ 4 then
    let cqIdentifier := fields.getD 0 []
    let approvedBy := fields.getD 3 []
    match normalizeParts (splitOnChar '/' cqIdentifier) with
    | some (scope, name, version, ident) =>
      if st.m.has ident then
        { st with log := st.log ++ unusedEntry (st.n + 1) ident, n := st.n + 1 }
      else if approvedBy = jstr "clearlydefined" then
        { st with m := st.m.set ident (clearlydefinedLink scope name version) }
      else
        { st with m := st.m.set ident approvedBy }
    | none => st
  else st

/-- The comma-split non-empty lines of the ledger file. -/
def ledgerFields (fileData : JStr) : List (List JStr) :=
  ((splitLines fileData).filter (fun l => l ≠ [])).map splitCommaSpace

structure ParseResult where
  depsMap : JsMap JStr
  licenses : Option (JsMap LicenseInfo)
  logger : LoggerState
deriving DecidableEq

/-- `DependencyParser.parseDependenciesFile` (source lines 85-210): the
license pass updates `allLicenses`, the approval pass updates
`dependenciesMap` and, when unused excludes were found, flushes the local
log (headed `## UNUSED Excludes` iff the map was non-empty on entry) to the
global logger. -/
def parseDependenciesFile (fileData : JStr) (dependenciesMap : JsMap JStr)
    (allLicenses : Option (JsMap LicenseInfo)) (st : LoggerState) : ParseResult :=
  let log0 : JStr :=
    if dependenciesMap.size > 0 then jstr "\n## UNUSED Excludes\n" else []
  let deps := ledgerFields fileData
  let licenses := allLicenses.map (fun lm => deps.foldl licenseStep lm)
  let approved := deps.filter (fun f => f.get? 2 = some (jstr "approved"))
  let final := approved.foldl approvalStep ⟨dependenciesMap, log0, 0⟩
  let st' := if final.n > 0 then addLog st (final.log ++ jstr "\n") else st
  ⟨final.m, licenses, st'⟩

/-! ### DependencyParser.parseExcludedFileData (src/document/index.ts 63-76)

The regex `/^\| `([^|^ ]+)` \| ([^|]+) \|$/gm` applied line by line.  The
first capture is space-free, so the greedy match is the unique split: the
first capture together with its closing backtick is exactly the maximal
space-free run after the leading "| `". -/

def matchExclRow (line : JStr) : Option (JStr × JStr) :=
  if jStartsWith line (jstr "| `") then
    let r := line.drop 3
    let pre := r.takeWhile (fun c => c ≠ ' ')
    if pre.getLast? = some '`' then
      let g1 := pre.dropLast
      if g1 ≠ [] ∧ g1.all (fun c => c ≠ '|' && c ≠ '^') then
        if (r.drop pre.length).take 3 = jstr " | " then
          let s := r.drop (pre.length + 3)
          let g2 := s.dropLast.dropLast
          if s.length ≥ 3 ∧ s.drop (s.length - 2) = jstr " |" ∧
              g2.all (fun c => c ≠ '|') then
            some (g1, g2)
          else none
        else none
      else none
    else none
  else none

def parseExcludedFileData (fileData : JStr) (depsMap : JsMap JStr) : JsMap JStr :=
  (splitOnChar '\n' fileData).foldl
    (fun m line =>
      match matchExclRow line with
      | some (k, v) => m.set k v
      | none => m)
    depsMap

/-! ### DocumentGenerator.arrayToDocument (src/document/index.ts 225-272) -/

def docHeader (title : JStr) : JStr :=
  jstr "# " ++ title ++ jstr "\n\n" ++
  jstr "| Packages | License | Resolved CQs |\n| --- | --- | --- |\n"

def licenseCell (lm : JsMap LicenseInfo) (item : JStr) : JStr :=
  match lm.get? item with
  | some li => li.License
  | none => []

def libCell (lm : JsMap LicenseInfo) (item : JStr) : JStr :=
  let lib := jstr "`" ++ item ++ jstr "`"
  match lm.get? item with
  | some li =>
    match li.URL with
    | some url => jstr "[" ++ lib ++ jstr "](" ++ url ++ jstr ")"
    | none => lib
  | none => lib

def cqCell (m : JsMap JStr) (item : JStr) : JStr := (m.get? item).getD []

/-- One Markdown table row, `| ${lib} | ${license} | ${cq} |\n`. -/
def rowFor (m : JsMap JStr) (lm : JsMap LicenseInfo) (item : JStr) : JStr :=
  jstr "| " ++ libCell lm item ++ jstr " | " ++ licenseCell lm item ++
  jstr " | " ++ cqCell m item ++ jstr " |\n"

structure DocState where
  document : JStr
  log : JStr
  unresolvedQuantity : Nat
  logger : LoggerState
deriving DecidableEq

/-- Body of the `depsArray.sort().forEach(item => ...)` loop. -/
def rowStep (m : JsMap JStr) (lm : JsMap LicenseInfo) (st : DocState)
    (item : JStr) : DocState :=
  if m.has item then
    { st with document := st.document ++ rowFor m lm item }
  else
    { document := st.document ++ rowFor m lm item,
      log := st.log ++ unusedEntry (st.unresolvedQuantity + 1) item,
      unresolvedQuantity := st.unresolvedQuantity + 1,
      logger := incrementUnresolved st.logger }

structure DocResult where
  document : JStr
  depsArrayAfter : List JStr
  logger : LoggerState
deriving DecidableEq

/-- `DocumentGenerator.arrayToDocument`: sorts `depsArray` in place, emits
one table row per element, logs unresolved entries, and returns the
document.  `depsArrayAfter` is the caller-visible content of the array
after the in-place `sort()`. -/
def arrayToDocument (title : JStr) (depsArray : List JStr) (depToCQ : JsMap JStr)
    (allLicenses : JsMap LicenseInfo) (st0 : LoggerState) : DocResult :=
  let log0 := jstr "\n## UNRESOLVED " ++ title ++ jstr "\n"
  let sorted := jsSortStrings depsArray
  let final := sorted.foldl (rowStep depToCQ allLicenses)
    ⟨docHeader title, log0, 0, st0⟩
  let logger :=
    if final.unresolvedQuantity > 0 then addLog final.logger (final.log ++ jstr "\n")
    else final.logger
  ⟨final.document, sorted, logger⟩

/-! ### MavenDependencyProcessor (src/package-managers/mvn/bump-deps.ts) -/

/-- `parseMavenDependencyLine` (source lines 44-68): ledger coordinate
`maven/mavencentral/groupId/artifactId/version` to `artifactId@version`. -/
def parseMavenDependencyLine (line : JStr) : Option JStr :=
  let trimmed := jsTrim line
  if trimmed = [] || jStartsWith trimmed (jstr "#") ||
      jStartsWith trimmed (jstr "Invalid:") then
    none
  else
    let commaParts := splitOnChar ',' trimmed
    let identifier := jsTrim (commaParts.getD 0 [])
    let parts := splitOnChar '/' identifier
    if parts.length ≥ 5 ∧ parts.getD 0 [] = jstr "maven" then
      some (parts.getD 3 [] ++ jstr "@" ++ parts.getD 4 [])
    else
      none

/-- `parseMavenRawDependency` (source lines 74-89): raw tool line
`groupId:artifactId:type:version:scope` to `artifactId@version`; the
version is the second-to-last colon field. -/
def parseMavenRawDependency (line : JStr) : Option JStr :=
  let trimmed := jsTrim line
  if trimmed = [] || jStartsWith trimmed (jstr "[") ||
      jStartsWith trimmed (jstr "The following") ||
      jStartsWith trimmed (jstr "#") then
    none
  else
    let parts := splitOnChar ':' trimmed
    if parts.length ≥ 5 then
      some (parts.getD 1 [] ++ jstr "@" ++ parts.getD (parts.length - 2) [])
    else
      none

/-! ### ChunkedDashLicensesProcessor (scripts, unnamed/part_014)

The external oracle invocation for chunk `i`, attempt `a` (1-based) is
abstracted as `env i a : Option JStr`: `some content` when after the
attempt the chunk's output file exists with non-empty content (the success
criterion of `processChunkWithRetry`, regardless of the oracle's exit
code), `none` when the attempt leaves no usable output. -/

def trimmedNonBlankLines (content : JStr) : List JStr :=
  ((splitOnChar '\n' content).map jsTrim).filter (fun l => l ≠ [])

/-- `mergeChunkResults` (source lines 281-316): deduplicate all trimmed
non-blank lines of the chunk files with a `Set`, sort, join with newlines;
throws (`none`) when no entries were found. -/
def dedupAux (seen : List JStr) : List JStr → List JStr
  | [] => []
  | x :: xs => if x ∈ seen then dedupAux seen xs else x :: dedupAux (x :: seen) xs

def dedupFirst (l : List JStr) : List JStr := dedupAux [] l

def joinNl : List JStr → JStr
  | [] => []
  | [x] => x
  | x :: y :: ys => x ++ jstr "\n" ++ joinNl (y :: ys)

def mergeChunkResults (files : List JStr) : Option (JStr × Nat) :=
  let allEntries := dedupFirst ((files.map trimmedNonBlankLines).flatten)
  if allEntries = [] then none
  else
    let sortedEntries := jsSortStrings allEntries
    some (joinNl sortedEntries ++ jstr "\n", sortedEntries.length)

/-- `splitIntoChunks` (source lines 150-158). -/
def chunksGo (n : Nat) : Nat → List JStr → List (List JStr)
  | _, [] => []
  | 0, deps => [deps]
  | fuel + 1, deps => deps.take n :: chunksGo n fuel (deps.drop n)

def splitIntoChunks (deps : List JStr) (chunkSize : Nat) : List (List JStr) :=
  if chunkSize = 0 then [] else chunksGo chunkSize deps.length deps

/-- `processChunkWithRetry` (source lines 163-245): up to `maxRetries`
attempts; an attempt succeeds when the output file exists non-empty. -/
def retryLoop (env : Nat → Option JStr) : Nat → Nat → Option JStr
  | _, 0 => none
  | attempt, fuel + 1 =>
    match env attempt with
    | some out => some out
    | none => retryLoop env (attempt + 1) fuel

def processChunkWithRetry (env : Nat → Option JStr) (maxRetries : Nat) : Option JStr :=
  retryLoop env 1 maxRetries

structure ProcessOutcome where
  attempted : List Nat
  chunkOutputs : List JStr
  finalOutput : Option JStr
  error : Option JStr
deriving DecidableEq

def chunkFailMsg (chunkNum total maxRetries : Nat) : JStr :=
  jstr "Chunk " ++ natToJStr chunkNum ++ jstr " of " ++ natToJStr total ++
  jstr " failed after " ++ natToJStr maxRetries ++ jstr " retries. Aborted processing."

/-- The chunk loop of `process` (source lines 67-106): abort on the first
chunk that exhausts its retries, otherwise merge all chunk outputs into the
final ledger. -/
def processLoop (env : Nat → Nat → Option JStr) (maxRetries total : Nat) :
    List (List JStr) → Nat → List Nat → List JStr → ProcessOutcome
  | [], _, attempted, outs =>
    match mergeChunkResults outs with
    | some (merged, _) => ⟨attempted, outs, some merged, none⟩
    | none => ⟨attempted, outs, none,
        some (jstr "No entries found in any chunk output files")⟩
  | _chunk :: rest, i, attempted, outs =>
    match processChunkWithRetry (env i) maxRetries with
    | some out =>
      processLoop env maxRetries total rest (i + 1) (attempted ++ [i + 1]) (outs ++ [out])
    | none =>
      ⟨attempted ++ [i + 1], outs, none, some (chunkFailMsg (i + 1) total maxRetries)⟩

/-- `ChunkedDashLicensesProcessor.process` on an already-obtained
dependency list. -/
def processChunks (env : Nat → Nat → Option JStr) (maxRetries : Nat)
    (allDependencies : List JStr) (batchSize : Nat) : ProcessOutcome :=
  let chunks := splitIntoChunks allDependencies batchSize
  processLoop env maxRetries chunks.length chunks 0 [] []

/-! ### PackageManagerUtils.processAndGenerateDocuments (src/helpers/utils.ts)

Pure model of the adapter pipeline: file reads become parameters
(`none` = the file does not exist), `process.exit(1)` becomes
`exitCode = some 1`.  The global `Logger` starts fresh per process. -/

structure RunResult where
  prodDoc : Option JStr
  devDoc : Option JStr
  logger : LoggerState
  exitCode : Option Nat
  approvalMap : JsMap JStr
deriving DecidableEq

def seedExclusions (excludedProd excludedDev : Option JStr) : JsMap JStr :=
  let m : JsMap JStr := JsMap.empty
  let m := match excludedProd with
    | some t => parseExcludedFileData t m
    | none => m
  match excludedDev with
  | some t => parseExcludedFileData t m
  | none => m

def processAndGenerateDocuments (prodDeps devDeps : List JStr)
    (allDependencies : JsMap LicenseInfo)
    (excludedProd excludedDev : Option JStr)
    (dependencies : Option JStr) : RunResult :=
  let depsToCQ := seedExclusions excludedProd excludedDev
  match dependencies with
  | none => ⟨none, none, ⟨[], 0⟩, some 1, depsToCQ⟩
  | some d =>
    if jsTrim d = [] then ⟨none, none, ⟨[], 0⟩, some 1, depsToCQ⟩
    else
      let pr := parseDependenciesFile d depsToCQ (some allDependencies) ⟨[], 0⟩
      let lm := pr.licenses.getD JsMap.empty
      let r1 := arrayToDocument (jstr "Production dependencies") prodDeps pr.depsMap lm pr.logger
      let r2 := arrayToDocument (jstr "Development dependencies") devDeps pr.depsMap lm r1.logger
      let exit := if r2.logger.unresolvedNumber > 0 then some 1 else none
      ⟨some r1.document, some r2.document, r2.logger, exit, pr.depsMap⟩

/-! ### yarn3 adapter (src/package-managers/yarn3/bump-deps.ts 83-128)

Faithful to the source's statement order: the production exclusion file is
parsed into `depsToCQ`, then the ledger is parsed, then the production
document is generated, and only afterwards is the development exclusion
file parsed into the same map before the development document. -/

def yarn3BumpDeps (allDependencies : JsMap LicenseInfo)
    (excludedProd excludedDev : Option JStr)
    (dependencies : JStr) (yarnProdDeps : List JStr) : RunResult :=
  let depsToCQ : JsMap JStr := JsMap.empty
  let depsToCQ := match excludedProd with
    | some t => parseExcludedFileData t depsToCQ
    | none => depsToCQ
  let pr := parseDependenciesFile dependencies depsToCQ (some allDependencies) ⟨[], 0⟩
  let lm := pr.licenses.getD JsMap.empty
  let yarnAllDeps := jsSortStrings (lm.entries.map (fun e => e.1))
  let yarnDevDeps := yarnAllDeps.filter (fun e => ¬ yarnProdDeps.contains e)
  let r1 := arrayToDocument (jstr "Production dependencies") yarnProdDeps pr.depsMap lm pr.logger
  let m2 := match excludedDev with
    | some t => parseExcludedFileData t pr.depsMap
    | none => pr.depsMap
  let r2 := arrayToDocument (jstr "Development dependencies") yarnDevDeps m2 lm r1.logger
  let exit := if r2.logger.unresolvedNumber > 0 then some 1 else none
  ⟨some r1.document, some r2.document, r2.logger, exit, m2⟩

/-! ### Lemmas about `JsMap` -/

theorem lookupA_setA_self {α : Type} (es : List (JStr × α)) (k : JStr) (v : α) :
    lookupA (setA es k v) k = some v := by
  induction es with
  | nil => simp [setA, lookupA]
  | cons e rest ih =>
    obtain ⟨k', v'⟩ := e
    by_cases h : k' = k
    · simp [setA, h, lookupA]
    · simp [setA, h, lookupA, ih]

theorem lookupA_setA_ne {α : Type} (es : List (JStr × α)) (k q : JStr) (v : α)
    (h : k ≠ q) : lookupA (setA es k v) q = lookupA es q := by
  induction es with
  | nil =>
    simp only [setA, lookupA]
    rw [if_neg h]
  | cons e rest ih =>
    obtain ⟨k', v'⟩ := e
    by_cases h' : k' = k
    · subst h'
      simp [setA, lookupA, h]
    · simp [setA, h', lookupA, ih]

theorem JsMap.get?_set_self {α : Type} (m : JsMap α) (k : JStr) (v : α) :
    (m.set k v).get? k = some v := lookupA_setA_self m.entries k v

theorem JsMap.get?_set_ne {α : Type} (m : JsMap α) (k q : JStr) (v : α)
    (h : k ≠ q) : (m.set k v).get? q = m.get? q := lookupA_setA_ne m.entries k q v h

theorem JsMap.size_pos_of_get? {α : Type} (m : JsMap α) (k : JStr) (v : α)
    (h : m.get? k = some v) : m.size > 0 := by
  rcases m with ⟨es⟩
  cases es with
  | nil => simp [JsMap.get?, lookupA] at h
  | cons e rest => simp [JsMap.size]

theorem JsMap.has_of_get? {α : Type} (m : JsMap α) (k : JStr) (v : α)
    (h : m.get? k = some v) : m.has k = true := by
  simp [JsMap.has, h]

/-! ### The UTF-16 code-unit order is a total antisymmetric order -/

theorem ltNatList_asymm : ∀ a b : List Nat,
    ltNatList a b = true → ltNatList b a = false
  | [], [], h => by simp [ltNatList] at h
  | [], _ :: _, _ => by simp [ltNatList]
  | _ :: _, [], h => by simp [ltNatList] at h
  | a :: as, b :: bs, h => by
    simp only [ltNatList] at h ⊢
    by_cases hab : a < b
    · have hba : ¬ b < a := by omega
      simp [hba, hab]
    · by_cases hba : b < a
      · simp [hab, hba] at h
      · simp only [hab, hba, if_false] at h ⊢
        exact ltNatList_asymm as bs h

theorem ltNatList_conn : ∀ a b : List Nat,
    ltNatList a b = false → ltNatList b a = false → a = b
  | [], [], _, _ => rfl
  | [], _ :: _, h, _ => by simp [ltNatList] at h
  | _ :: _, [], _, h => by simp [ltNatList] at h
  | a :: as, b :: bs, h1, h2 => by
    simp only [ltNatList] at h1 h2
    by_cases hab : a < b
    · simp [hab] at h1
    · by_cases hba : b < a
      · simp [hba, hab] at h2
      · have hq : a = b := by omega
        subst hq
        simp only [hab, if_false, lt_irrefl] at h1 h2
        rw [ltNatList_conn as bs h1 h2]

theorem ltNatList_trans : ∀ a b c : List Nat,
    ltNatList a b = true → ltNatList b c = true → ltNatList a c = true
  | [], [], _, h1, _ => by simp [ltNatList] at h1
  | [], _ :: _, [], _, h2 => by simp [ltNatList] at h2
  | [], _ :: _, _ :: _, _, _ => by simp [ltNatList]
  | _ :: _, [], _, h1, _ => by simp [ltNatList] at h1
  | _ :: _, _ :: _, [], _, h2 => by simp [ltNatList] at h2
  | a :: as, b :: bs, c :: cs, h1, h2 => by
    simp only [ltNatList] at h1 h2 ⊢
    by_cases hab : a < b
    · by_cases hbc : b < c
      · have : a < c := by omega
        simp [this]
      · by_cases hcb : c < b
        · simp [hbc, hcb] at h2
        · have : b = c := by omega
          subst this
          simp [hab]
    · by_cases hba : b < a
      · simp [hab, hba] at h1
      · have : a = b := by omega
        subst this
        simp only [hab, if_false, lt_irrefl] at h1 h2 ⊢
        by_cases hbc : a < c
        · simp [hbc]
        · by_cases hcb : c < a
          · simp [hbc, hcb] at h2
          · simp only [hbc, hcb, if_false] at h2 ⊢
            exact ltNatList_trans as bs cs h1 h2

theorem char_valid_nat (c : Char) :
    c.toNat < 0xd800 ∨ (0xdfff < c.toNat ∧ c.toNat < 0x110000) := by
  have h := c.valid
  unfold UInt32.isValidChar Nat.isValidChar at h
  exact h

theorem char_toNat_inj {a b : Char} (h : a.toNat = b.toNat) : a = b := by
  have ha := Char.ofNat_toNat a
  rw [h, Char.ofNat_toNat] at ha
  exact ha.symm

theorem charUtf16_ne_nil (c : Char) : charUtf16 c ≠ [] := by
  unfold charUtf16
  split <;> simp

theorem utf16_cons (c : Char) (s : JStr) :
    utf16 (c :: s) = charUtf16 c ++ utf16 s := by
  simp [utf16]

theorem utf16_inj : ∀ a b : JStr, utf16 a = utf16 b → a = b
  | [], [], _ => rfl
  | [], c :: s, h => by
    rw [utf16_cons] at h
    simp only [utf16, List.map_nil, List.flatten_nil] at h
    exact absurd (List.append_eq_nil.mp h.symm).1 (charUtf16_ne_nil c)
  | c :: s, [], h => by
    rw [utf16_cons] at h
    simp only [utf16, List.map_nil, List.flatten_nil] at h
    exact absurd (List.append_eq_nil.mp h).1 (charUtf16_ne_nil c)
  | c :: s, d :: t, h => by
    rw [utf16_cons, utf16_cons] at h
    have hc := char_valid_nat c
    have hd := char_valid_nat d
    have hcd : c = d ∧ utf16 s = utf16 t := by
      by_cases h1 : c.toNat < 0x10000 <;> by_cases h2 : d.toNat < 0x10000
      · rw [charUtf16, charUtf16, if_pos h1, if_pos h2] at h
        simp only [List.cons_append, List.nil_append, List.cons.injEq] at h
        exact ⟨char_toNat_inj h.1, h.2⟩
      · exfalso
        rw [charUtf16, charUtf16, if_pos h1, if_neg h2] at h
        simp only [List.cons_append, List.nil_append, List.cons.injEq] at h
        have hd2 : d.toNat < 0x110000 := by omega
        have hq : (d.toNat - 0x10000) / 0x400 < 0x400 := by omega
        omega
      · exfalso
        rw [charUtf16, charUtf16, if_neg h1, if_pos h2] at h
        simp only [List.cons_append, List.nil_append, List.cons.injEq] at h
        have hc2 : c.toNat < 0x110000 := by omega
        have hq : (c.toNat - 0x10000) / 0x400 < 0x400 := by omega
        omega
      · rw [charUtf16, charUtf16, if_neg h1, if_neg h2] at h
        simp only [List.cons_append, List.cons.injEq] at h
        obtain ⟨e1, e2, e3⟩ := h
        have hcn : c.toNat < 0x110000 := by omega
        have hdn : d.toNat < 0x110000 := by omega
        have he : c.toNat = d.toNat := by omega
        exact ⟨char_toNat_inj he, e3⟩
    obtain ⟨hcd1, hcd2⟩ := hcd
    rw [hcd1, utf16_inj s t hcd2]

theorem strLe_total_pair (a b : JStr) : strLe a b ∨ strLe b a := by
  unfold strLe ltUtf16
  by_cases h : ltNatList (utf16 a) (utf16 b) = true
  · exact Or.inl (ltNatList_asymm _ _ h)
  · exact Or.inr (by simpa using h)

theorem strLe_antisymm_pair (a b : JStr) (h1 : strLe a b) (h2 : strLe b a) : a = b := by
  unfold strLe ltUtf16 at h1 h2
  exact utf16_inj a b (ltNatList_conn _ _ h2 h1)

theorem strLe_trans_pair (a b c : JStr) (h1 : strLe a b) (h2 : strLe b c) :
    strLe a c := by
  unfold strLe ltUtf16 at h1 h2 ⊢
  by_cases h : ltNatList (utf16 c) (utf16 a) = true
  · exfalso
    by_cases hba : ltNatList (utf16 b) (utf16 a) = true
    · exact absurd h1 (by simp [hba])
    · by_cases hab : ltNatList (utf16 a) (utf16 b) = true
      · have := ltNatList_trans _ _ _ h hab
        exact absurd h2 (by simp [this])
      · have hq := ltNatList_conn _ _ (by simpa using hab) (by simpa using hba)
        rw [hq] at h
        exact absurd h2 (by simp [h])
  · simpa using h

instance : IsAntisymm JStr strLe := ⟨strLe_antisymm_pair⟩
instance : IsTrans JStr strLe := ⟨strLe_trans_pair⟩
instance : IsTotal JStr strLe := ⟨strLe_total_pair⟩

theorem strLe_of_lt {a b : JStr} (h : ltUtf16 a b = true) : strLe a b := by
  unfold strLe
  exact ltNatList_asymm _ _ h

/-! ### `jsSortStrings` sorts and permutes -/

theorem insertStr_perm (x : JStr) (l : List JStr) : List.Perm (insertStr x l) (x :: l) := by
  induction l with
  | nil => simp [insertStr]
  | cons y ys ih =>
    unfold insertStr
    by_cases h : ltUtf16 y x = true
    · simp only [h, if_pos]
      exact (ih.cons y).trans (List.Perm.swap x y ys)
    · simp [h]

theorem jsSortStrings_perm (l : List JStr) : List.Perm (jsSortStrings l) l := by
  induction l with
  | nil => simp [jsSortStrings]
  | cons x xs ih =>
    unfold jsSortStrings
    exact (insertStr_perm x (jsSortStrings xs)).trans (ih.cons x)

theorem sorted_insertStr (x : JStr) (l : List JStr) (h : l.Sorted strLe) :
    (insertStr x l).Sorted strLe := by
  induction l with
  | nil => simp [insertStr]
  | cons y ys ih =>
    rw [List.sorted_cons] at h
    obtain ⟨hy, hys⟩ := h
    unfold insertStr
    by_cases hlt : ltUtf16 y x = true
    · simp only [hlt, if_pos]
      rw [List.sorted_cons]
      constructor
      · intro z hz
        have hz' := (insertStr_perm x ys).mem_iff.mp hz
        rcases List.mem_cons.mp hz' with hzx | hzy
        · rw [hzx]
          exact strLe_of_lt hlt
        · exact hy z hzy
      · exact ih hys
    · simp only [hlt, if_neg, Bool.not_eq_true]
      rw [List.sorted_cons]
      constructor
      · intro z hz
        rcases List.mem_cons.mp hz with hzy | hzys
        · rw [hzy]
          unfold strLe
          simpa using hlt
        · have h1 : strLe x y := by
            unfold strLe
            simpa using hlt
          exact strLe_trans_pair x y z h1 (hy z hzys)
      · rw [List.sorted_cons]
        exact ⟨hy, hys⟩

theorem sorted_jsSortStrings (l : List JStr) : (jsSortStrings l).Sorted strLe := by
  induction l with
  | nil => simp [jsSortStrings]
  | cons x xs ih => exact sorted_insertStr x (jsSortStrings xs) ih

theorem jsSortStrings_eq_of_perm {l1 l2 : List JStr} (h : List.Perm l1 l2) :
    jsSortStrings l1 = jsSortStrings l2 :=
  List.eq_of_perm_of_sorted
    ((jsSortStrings_perm l1).trans (h.trans (jsSortStrings_perm l2).symm))
    (sorted_jsSortStrings l1) (sorted_jsSortStrings l2)

/-! ### Deduplication (JS `Set` insertion order) -/

theorem dedupAux_mem : ∀ (seen l : List JStr) (x : JStr),
    x ∈ dedupAux seen l ↔ (x ∈ l ∧ x ∉ seen)
  | _, [], x => by simp [dedupAux]
  | seen, y :: ys, x => by
    unfold dedupAux
    by_cases hy : y ∈ seen
    · rw [if_pos hy, dedupAux_mem seen ys x]
      constructor
      · exact fun ⟨h1, h2⟩ => ⟨List.mem_cons_of_mem y h1, h2⟩
      · rintro ⟨h1, h2⟩
        rcases List.mem_cons.mp h1 with h3 | h3
        · exact absurd (h3 ▸ hy) h2
        · exact ⟨h3, h2⟩
    · rw [if_neg hy]
      simp only [List.mem_cons, dedupAux_mem (y :: seen) ys x]
      constructor
      · rintro (h1 | ⟨h1, h2⟩)
        · exact ⟨Or.inl h1, h1 ▸ hy⟩
        · exact ⟨Or.inr h1, fun hc => h2 (Or.inr hc)⟩
      · rintro ⟨h1 | h1, h2⟩
        · exact Or.inl h1
        · by_cases hxy : x = y
          · exact Or.inl hxy
          · exact Or.inr ⟨h1, by simp [hxy, h2]⟩

theorem dedupAux_nodup : ∀ (seen l : List JStr), (dedupAux seen l).Nodup
  | _, [] => by simp [dedupAux]
  | seen, y :: ys => by
    unfold dedupAux
    by_cases hy : y ∈ seen
    · rw [if_pos hy]
      exact dedupAux_nodup seen ys
    · rw [if_neg hy]
      refine List.nodup_cons.mpr ⟨?_, dedupAux_nodup (y :: seen) ys⟩
      intro hc
      exact ((dedupAux_mem (y :: seen) ys y).mp hc).2 (List.mem_cons_self y seen)

theorem dedupFirst_mem (l : List JStr) (x : JStr) : x ∈ dedupFirst l ↔ x ∈ l := by
  unfold dedupFirst
  rw [dedupAux_mem]
  simp

theorem dedupFirst_nodup (l : List JStr) : (dedupFirst l).Nodup := dedupAux_nodup [] l

theorem dedupFirst_perm_of_perm {l1 l2 : List JStr} (h : List.Perm l1 l2) :
    List.Perm (dedupFirst l1) (dedupFirst l2) := by
  rw [List.perm_ext_iff_of_nodup (dedupFirst_nodup l1) (dedupFirst_nodup l2)]
  intro a
  rw [dedupFirst_mem, dedupFirst_mem]
  exact h.mem_iff

/-! ### Claim C10 -/

/-- C10: `arrayToDocument` sorts its `depsArray` argument in place: after
every call the caller's array holds the same elements permuted into
lexicographically sorted (UTF-16 code-unit) order; on the concrete input
`["b", "a"]` the array observably changes to `["a", "b"]`. -/
theorem arrayToDocument_sorts_in_place :
    (∀ (title : JStr) (deps : List JStr) (m : JsMap JStr)
       (lm : JsMap LicenseInfo) (st : LoggerState),
      List.Perm (arrayToDocument title deps m lm st).depsArrayAfter deps ∧
      ((arrayToDocument title deps m lm st).depsArrayAfter).Sorted strLe) ∧
    (arrayToDocument (jstr "T") [jstr "b", jstr "a"] JsMap.empty JsMap.empty
        ⟨[], 0⟩).depsArrayAfter = [jstr "a", jstr "b"] := by
  constructor
  · intro title deps m lm st
    have hafter : (arrayToDocument title deps m lm st).depsArrayAfter
        = jsSortStrings deps := rfl
    rw [hafter]
    exact ⟨jsSortStrings_perm deps, sorted_jsSortStrings deps⟩
  · decide

/-! ### Claim C3 -/

theorem flatten_trimmedNonBlank (files : List JStr) :
    (files.map trimmedNonBlankLines).flatten =
      (((files.map (splitOnChar '\n')).flatten).map jsTrim).filter
        (fun l => l ≠ []) := by
  induction files with
  | nil => simp
  | cons f fs ih =>
    simp only [List.map_cons, List.flatten_cons, List.map_append,
      List.filter_append, trimmedNonBlankLines, ih]

/-- C3: the merged ledger written by `mergeChunkResults` is determined by
the multiset of chunk-file lines alone: two runs whose chunk files hold
permutations of the same lines produce identical output, and the output is
the newline-join of a sorted, duplicate-free enumeration of all trimmed
non-blank lines of the chunk files. -/
theorem mergeChunkResults_deterministic :
    (∀ files1 files2 : List JStr,
      List.Perm ((files1.map (splitOnChar '\n')).flatten)
        ((files2.map (splitOnChar '\n')).flatten) →
      mergeChunkResults files1 = mergeChunkResults files2) ∧
    (∀ (files : List JStr) (out : JStr) (n : Nat),
      mergeChunkResults files = some (out, n) →
      ∃ entries : List JStr,
        out = joinNl entries ++ jstr "\n" ∧ n = entries.length ∧
        entries.Sorted strLe ∧ entries.Nodup ∧
        (∀ l, l ∈ entries ↔ l ∈ (files.map trimmedNonBlankLines).flatten)) := by
  constructor
  · intro files1 files2 h
    have hlines : List.Perm ((files1.map trimmedNonBlankLines).flatten)
        ((files2.map trimmedNonBlankLines).flatten) := by
      rw [flatten_trimmedNonBlank, flatten_trimmedNonBlank]
      exact (h.map jsTrim).filter _
    have hd := dedupFirst_perm_of_perm hlines
    have hs := jsSortStrings_eq_of_perm hd
    unfold mergeChunkResults
    by_cases h1 : dedupFirst ((files1.map trimmedNonBlankLines).flatten) = []
    · have h2 : dedupFirst ((files2.map trimmedNonBlankLines).flatten) = [] := by
        rw [h1] at hd
        exact hd.symm.eq_nil
      rw [if_pos h1, if_pos h2]
    · have h2 : dedupFirst ((files2.map trimmedNonBlankLines).flatten) ≠ [] := by
        intro hc
        rw [hc] at hd
        exact h1 hd.eq_nil
      rw [if_neg h1, if_neg h2, hs]
  · intro files out n h
    unfold mergeChunkResults at h
    by_cases h1 : dedupFirst ((files.map trimmedNonBlankLines).flatten) = []
    · rw [if_pos h1] at h
      cases h
    · rw [if_neg h1] at h
      have h2 := Option.some.inj h
      have hout : out = joinNl (jsSortStrings (dedupFirst
          ((files.map trimmedNonBlankLines).flatten))) ++ jstr "\n" :=
        (congrArg Prod.fst h2).symm
      have hn : n = (jsSortStrings (dedupFirst
          ((files.map trimmedNonBlankLines).flatten))).length :=
        (congrArg Prod.snd h2).symm
      refine ⟨jsSortStrings (dedupFirst ((files.map trimmedNonBlankLines).flatten)),
        hout, hn, sorted_jsSortStrings _, ?_, ?_⟩
      · exact ((jsSortStrings_perm _).nodup_iff).mpr (dedupFirst_nodup _)
      · intro l
        rw [(jsSortStrings_perm _).mem_iff, dedupFirst_mem]

/-- Witness for C3 at the spec's sort-determinism scenario: the same lines
distributed differently over chunks merge to the same ledger. -/
theorem mergeChunkResults_deterministic_witness :
    mergeChunkResults [jstr "b\na", jstr "b"] = mergeChunkResults [jstr "a", jstr "b\nb"] ∧
    (∃ entries : List JStr,
      jstr "a\nb\n" = joinNl entries ++ jstr "\n" ∧ 2 = entries.length ∧
      entries.Sorted strLe ∧ entries.Nodup ∧
      (∀ l, l ∈ entries ↔ l ∈ ([jstr "b\na", jstr "b"].map trimmedNonBlankLines).flatten)) :=
  ⟨mergeChunkResults_deterministic.1 _ _ (by decide),
   mergeChunkResults_deterministic.2 [jstr "b\na", jstr "b"] (jstr "a\nb\n") 2 (by decide)⟩

/-! ### Claim C2 -/

theorem retryLoop_none (env1 : Nat → Option JStr) :
    ∀ (fuel start : Nat), (∀ a, start ≤ a → a < start + fuel → env1 a = none) →
      retryLoop env1 start fuel = none
  | 0, _, _ => rfl
  | fuel + 1, start, h => by
    unfold retryLoop
    rw [h start (Nat.le_refl start) (by omega)]
    exact retryLoop_none env1 fuel (start + 1) (fun a h1 h2 => h a (by omega) (by omega))

theorem processChunkWithRetry_none (env1 : Nat → Option JStr) (maxRetries : Nat)
    (h : ∀ a, 1 ≤ a → a ≤ maxRetries → env1 a = none) :
    processChunkWithRetry env1 maxRetries = none :=
  retryLoop_none env1 maxRetries 1 (fun a h1 h2 => h a h1 (by omega))

theorem processLoop_abort (env : Nat → Nat → Option JStr) (maxRetries total k : Nat)
    (hfail : processChunkWithRetry (env k) maxRetries = none) :
    ∀ (rest : List (List JStr)) (i : Nat) (att : List Nat) (outs : List JStr),
      i ≤ k → k < i + rest.length →
      (∀ j, i ≤ j → j < k → (processChunkWithRetry (env j) maxRetries).isSome) →
      (processLoop env maxRetries total rest i att outs).error
          = some (chunkFailMsg (k + 1) total maxRetries) ∧
      (processLoop env maxRetries total rest i att outs).finalOutput = none ∧
      (∀ nc ∈ (processLoop env maxRetries total rest i att outs).attempted,
        nc ∈ att ∨ nc ≤ k + 1)
  | [], i, att, outs, h1, h2, _ => by
    simp only [List.length_nil] at h2
    omega
  | c :: rest', i, att, outs, h1, h2, hsucc => by
    by_cases hik : i = k
    · subst hik
      unfold processLoop
      rw [hfail]
      refine ⟨rfl, rfl, ?_⟩
      intro nc hnc
      rcases List.mem_append.mp hnc with h3 | h3
      · exact Or.inl h3
      · exact Or.inr (by rw [List.mem_singleton.mp h3])
    · have hik' : i < k := by omega
      have hs := hsucc i (Nat.le_refl i) hik'
      obtain ⟨out, hout⟩ := Option.isSome_iff_exists.mp hs
      unfold processLoop
      rw [hout]
      have ih := processLoop_abort env maxRetries total k hfail rest' (i + 1)
        (att ++ [i + 1]) (outs ++ [out]) (by omega) (by simp only [List.length_cons] at h2; omega)
        (fun j hj1 hj2 => hsucc j (by omega) hj2)
      refine ⟨ih.1, ih.2.1, ?_⟩
      intro nc hnc
      rcases ih.2.2 nc hnc with h3 | h3
      · rcases List.mem_append.mp h3 with h4 | h4
        · exact Or.inl h4
        · exact Or.inr (by rw [List.mem_singleton.mp h4]; omega)
      · exact Or.inr h3

/-- C2: if chunk `k` (0-based; reported 1-based) fails on every one of its
retry attempts while all earlier chunks succeed, `process` raises an error
naming index `k+1`, attempts no chunk beyond it, and does not write the
final merged ledger output. -/
theorem chunkFailure_abort (env : Nat → Nat → Option JStr) (maxRetries : Nat)
    (allDependencies : List JStr) (batchSize k : Nat)
    (hk : k < (splitIntoChunks allDependencies batchSize).length)
    (hfail : ∀ a, 1 ≤ a → a ≤ maxRetries → env k a = none)
    (hsucc : ∀ j, j < k → (processChunkWithRetry (env j) maxRetries).isSome) :
    (processChunks env maxRetries allDependencies batchSize).error
        = some (jstr "Chunk " ++ natToJStr (k + 1) ++ jstr " of " ++
            natToJStr (splitIntoChunks allDependencies batchSize).length ++
            jstr " failed after " ++ natToJStr maxRetries ++
            jstr " retries. Aborted processing.") ∧
    (processChunks env maxRetries allDependencies batchSize).finalOutput = none ∧
    (∀ nc ∈ (processChunks env maxRetries allDependencies batchSize).attempted,
      nc ≤ k + 1) := by
  have h := processLoop_abort env maxRetries
    (splitIntoChunks allDependencies batchSize).length k
    (processChunkWithRetry_none (env k) maxRetries hfail)
    (splitIntoChunks allDependencies batchSize) 0 [] []
    (Nat.zero_le k) (by simpa using hk)
    (fun j _ hj2 => hsucc j hj2)
  refine ⟨?_, h.2.1, ?_⟩
  · have := h.1
    unfold chunkFailMsg at this
    simpa [List.append_assoc] using this
  · intro nc hnc
    rcases h.2.2 nc hnc with h3 | h3
    · simp at h3
    · exact h3

/-- Witness for C2 at the spec's chunk-failure scenario: three one-element
chunks, the second exhausting two attempts. -/
theorem chunkFailure_abort_witness :
    (processChunks (fun i _ => if i = 0 then some (jstr "x") else none) 2
        [jstr "a", jstr "b", jstr "c"] 1).error
      = some (jstr "Chunk " ++ natToJStr 2 ++ jstr " of " ++ natToJStr 3 ++
          jstr " failed after " ++ natToJStr 2 ++ jstr " retries. Aborted processing.") ∧
    (processChunks (fun i _ => if i = 0 then some (jstr "x") else none) 2
        [jstr "a", jstr "b", jstr "c"] 1).finalOutput = none ∧
    (∀ nc ∈ (processChunks (fun i _ => if i = 0 then some (jstr "x") else none) 2
        [jstr "a", jstr "b", jstr "c"] 1).attempted, nc ≤ 2) := by
  have h := chunkFailure_abort (fun i _ => if i = 0 then some (jstr "x") else none)
    2 [jstr "a", jstr "b", jstr "c"] 1 1 (by decide)
    (fun a _ _ => rfl)
    (fun j hj => by
      have : j = 0 := by omega
      subst this
      decide)
  exact ⟨by rw [h.1]; decide, h.2.1, h.2.2⟩

/-! ### String lemmas for the Maven and legacy-format claims -/

theorem dropLeadingWs_eq_self (s : JStr)
    (h : ∀ c, s.head? = some c → isJsWs c = false) : dropLeadingWs s = s := by
  cases s with
  | nil => rfl
  | cons c r =>
    unfold dropLeadingWs
    simp [h c rfl]

theorem jsTrim_eq_self (s : JStr)
    (h1 : ∀ c, s.head? = some c → isJsWs c = false)
    (h2 : ∀ c, s.getLast? = some c → isJsWs c = false) : jsTrim s = s := by
  unfold jsTrim
  rw [dropLeadingWs_eq_self s h1]
  rw [dropLeadingWs_eq_self s.reverse
    (fun c hc => h2 c (by rwa [List.head?_reverse] at hc))]
  exact List.reverse_reverse s

theorem splitOnChar_ne_nil (sep : Char) : ∀ s : JStr, splitOnChar sep s ≠ []
  | [] => by simp [splitOnChar]
  | c :: rest => by
    unfold splitOnChar
    cases hs : splitOnChar sep rest with
    | nil => simp
    | cons f fs =>
      by_cases h : c = sep <;> simp [h]

theorem splitOnChar_sepFree (sep : Char) :
    ∀ p : JStr, (∀ c ∈ p, c ≠ sep) → splitOnChar sep p = [p]
  | [], _ => rfl
  | c :: rest, h => by
    unfold splitOnChar
    rw [splitOnChar_sepFree sep rest (fun d hd => h d (List.mem_cons_of_mem c hd))]
    simp [h c (List.mem_cons_self c rest)]

theorem splitOnChar_append_sep (sep : Char) :
    ∀ (p rest : JStr), (∀ c ∈ p, c ≠ sep) →
      splitOnChar sep (p ++ sep :: rest) = p :: splitOnChar sep rest
  | [], rest, _ => by
    show splitOnChar sep (sep :: rest) = [] :: splitOnChar sep rest
    rw [splitOnChar]
    cases hs : splitOnChar sep rest with
    | nil => exact absurd hs (splitOnChar_ne_nil sep rest)
    | cons f fs => simp
  | c :: p', rest, h => by
    show splitOnChar sep (c :: (p' ++ sep :: rest)) = (c :: p') :: splitOnChar sep rest
    rw [splitOnChar, splitOnChar_append_sep sep p' rest
      (fun d hd => h d (List.mem_cons_of_mem c hd))]
    simp [h c (List.mem_cons_self c p')]

theorem jStartsWith_exists : ∀ (p s : JStr), jStartsWith s p = true → ∃ t, s = p ++ t
  | [], s, _ => ⟨s, rfl⟩
  | d :: p', [], h => by simp [jStartsWith] at h
  | d :: p', c :: s', h => by
    unfold jStartsWith at h
    rw [Bool.and_eq_true] at h
    obtain ⟨t, ht⟩ := jStartsWith_exists p' s' h.2
    exact ⟨t, by simp [of_decide_eq_true h.1, ht]⟩

theorem jStartsWith_cons_false {c d : Char} (s p : JStr) (h : c ≠ d) :
    jStartsWith (c :: s) (d :: p) = false := by
  simp [jStartsWith, h]

theorem takeWhile_all_append (pred : Char → Bool) :
    ∀ (p t : JStr), (∀ c ∈ p, pred c = true) →
      (p ++ t).takeWhile pred = p ++ t.takeWhile pred
  | [], t, _ => rfl
  | c :: p', t, h => by
    simp only [List.cons_append, List.takeWhile_cons, h c (List.mem_cons_self c p'),
      if_pos]
    rw [takeWhile_all_append pred p' t (fun d hd => h d (List.mem_cons_of_mem c hd))]

theorem takeWhile_append_stop (pred : Char → Bool) (p rest : JStr)
    (h : ∀ c ∈ p, pred c = true) (hstop : ∀ c, rest.head? = some c → pred c = false) :
    (p ++ rest).takeWhile pred = p := by
  rw [takeWhile_all_append pred p rest h]
  cases rest with
  | nil => simp
  | cons c r => simp [List.takeWhile_cons, hstop c rfl]

theorem lastNotWs_of_append (x v : JStr) (tail : Char)
    (hvws : ∀ c ∈ v, isJsWs c = false) (htail : isJsWs tail = false) :
    ∀ c, ((x ++ [tail]) ++ v).getLast? = some c → isJsWs c = false := by
  intro c hc
  cases hv : v with
  | nil =>
    subst hv
    rw [List.append_nil, List.getLast?_append] at hc
    simp only [List.getLast?_singleton] at hc
    cases hc
    exact htail
  | cons c0 v' =>
    subst hv
    rw [List.getLast?_append] at hc
    cases hl : (c0 :: v').getLast? with
    | none =>
      rw [List.getLast?_eq_none_iff] at hl
      cases hl
    | some d =>
      rw [hl] at hc
      have hcd : d = c := by simpa [Option.or] using hc
      rw [← hcd]
      exact hvws d (List.mem_of_mem_getLast? hl)

theorem headNotWs_append (g : JStr) (c0 : Char) (r : JStr)
    (hg : ∀ c ∈ g, isJsWs c = false) (hc0 : isJsWs c0 = false) :
    ∀ c, (g ++ c0 :: r).head? = some c → isJsWs c = false := by
  intro c hc
  cases g with
  | nil =>
    simp only [List.nil_append, List.head?_cons, Option.some.injEq] at hc
    exact hc ▸ hc0
  | cons d g' =>
    simp only [List.cons_append, List.head?_cons, Option.some.injEq] at hc
    exact hc ▸ hg d (List.mem_cons_self d g')

theorem notStartsWith_append (g : JStr) (c0 d : Char) (r p : JStr)
    (hhead : g.head? ≠ some d) (hc0 : c0 ≠ d) :
    jStartsWith (g ++ c0 :: r) (d :: p) = false := by
  cases g with
  | nil => exact jStartsWith_cons_false r p hc0
  | cons c g' =>
    refine jStartsWith_cons_false (g' ++ c0 :: r) p ?_
    intro hc
    exact hhead (by rw [hc]; rfl)

/-- C8: the ledger coordinate `maven/mavencentral/g/a/v` and the raw tool
line `g:a:jar:v:scope` normalize to the identical identifier `a@v`. -/
theorem maven_roundtrip (g a v scope : JStr)
    (hgws : ∀ c ∈ g, isJsWs c = false)
    (hvws : ∀ c ∈ v, isJsWs c = false)
    (hscws : ∀ c ∈ scope, isJsWs c = false)
    (hgc : ∀ c ∈ g, c ≠ ':' ∧ c ≠ '/' ∧ c ≠ ',')
    (hac : ∀ c ∈ a, c ≠ ':' ∧ c ≠ '/' ∧ c ≠ ',')
    (hvc : ∀ c ∈ v, c ≠ ':' ∧ c ≠ '/' ∧ c ≠ ',')
    (hscc : ∀ c ∈ scope, c ≠ ':')
    (hgh1 : g.head? ≠ some '[') (hgh2 : g.head? ≠ some '#') :
    parseMavenDependencyLine
        (jstr "maven/mavencentral/" ++ g ++ jstr "/" ++ a ++ jstr "/" ++ v)
      = some (a ++ jstr "@" ++ v) ∧
    parseMavenRawDependency
        (g ++ jstr ":" ++ a ++ jstr ":jar:" ++ v ++ jstr ":" ++ scope)
      = some (a ++ jstr "@" ++ v) := by
  have hsl : jstr "/" = ['/'] := by decide
  have hcl : jstr ":" = [':'] := by decide
  constructor
  · set line := jstr "maven/mavencentral/" ++ g ++ jstr "/" ++ a ++ jstr "/" ++ v
      with hline
    have h0 : jstr "maven/mavencentral/"
        = jstr "maven" ++ '/' :: (jstr "mavencentral" ++ ['/']) := by decide
    have eL : line = jstr "maven" ++ '/' ::
        (jstr "mavencentral" ++ '/' :: (g ++ '/' :: (a ++ '/' :: v))) := by
      rw [hline, h0, hsl]
      simp [List.append_assoc]
    have hm : jstr "maven" = 'm' :: jstr "aven" := by decide
    have eC : line = 'm' :: (jstr "aven" ++ '/' ::
        (jstr "mavencentral" ++ '/' :: (g ++ '/' :: (a ++ '/' :: v)))) := by
      rw [eL, hm]
      simp
    have eV : line = ((jstr "maven/mavencentral/" ++ g ++ jstr "/" ++ a) ++ ['/']) ++ v := by
      rw [hline, hsl]
    have htrim : jsTrim line = line := by
      apply jsTrim_eq_self
      · intro c hc
        rw [eC] at hc
        simp only [List.head?_cons, Option.some.injEq] at hc
        rw [← hc]
        decide
      · rw [eV]
        exact lastNotWs_of_append _ v '/' hvws (by decide)
    have hnn : ¬ line = [] := by rw [eC]; simp
    have hg1 : jStartsWith line (jstr "#") = false := by
      rw [eC, (by decide : jstr "#" = '#' :: [])]
      exact jStartsWith_cons_false _ _ (by decide)
    have hg2 : jStartsWith line (jstr "Invalid:") = false := by
      rw [eC, (by decide : jstr "Invalid:" = 'I' :: jstr "nvalid:")]
      exact jStartsWith_cons_false _ _ (by decide)
    have hNoComma : ∀ c ∈ line, c ≠ ',' := by
      intro c hc
      rw [eL] at hc
      simp only [List.mem_append, List.mem_cons] at hc
      rcases hc with h | h | h | h | h | h | h | h
      · revert c
        decide
      · exact h ▸ (by decide)
      · revert c
        decide
      · exact h ▸ (by decide)
      · exact (hgc c h).2.2
      · exact h ▸ (by decide)
      · exact (hac c h).2.2
      · rcases h with h | h
        · exact h ▸ (by decide)
        · exact (hvc c h).2.2
    have hparts : splitOnChar '/' line
        = [jstr "maven", jstr "mavencentral", g, a, v] := by
      rw [eL,
        splitOnChar_append_sep '/' (jstr "maven") _ (by decide),
        splitOnChar_append_sep '/' (jstr "mavencentral") _ (by decide),
        splitOnChar_append_sep '/' g _ (fun c hc => (hgc c hc).2.1),
        splitOnChar_append_sep '/' a _ (fun c hc => (hac c hc).2.1),
        splitOnChar_sepFree '/' v (fun c hc => (hvc c hc).2.1)]
    simp only [parseMavenDependencyLine]
    rw [htrim, if_neg (by simp [hnn, hg1, hg2])]
    rw [splitOnChar_sepFree ',' line hNoComma]
    have hget : List.getD [line] 0 [] = line := rfl
    rw [hget, htrim, hparts]
    rw [if_pos ⟨by simp, by simp [List.getD]⟩]
    simp [List.getD]
  · set line2 := g ++ jstr ":" ++ a ++ jstr ":jar:" ++ v ++ jstr ":" ++ scope
      with hline2
    have h0 : jstr ":jar:" = ':' :: (jstr "jar" ++ [':']) := by decide
    have eR : line2 = g ++ ':' ::
        (a ++ ':' :: (jstr "jar" ++ ':' :: (v ++ ':' :: scope))) := by
      rw [hline2, h0, hcl]
      simp [List.append_assoc]
    have eV : line2 = ((g ++ jstr ":" ++ a ++ jstr ":jar:" ++ v) ++ [':']) ++ scope := by
      rw [hline2, hcl]
    have htrim : jsTrim line2 = line2 := by
      apply jsTrim_eq_self
      · rw [eR]
        exact headNotWs_append g ':' _ hgws (by decide)
      · rw [eV]
        exact lastNotWs_of_append _ scope ':' hscws (by decide)
    have hnn : ¬ line2 = [] := by
      rw [eR]
      simp
    have hb1 : jStartsWith line2 (jstr "[") = false := by
      rw [eR, (by decide : jstr "[" = '[' :: [])]
      exact notStartsWith_append g ':' '[' _ _ hgh1 (by decide)
    have hb2 : jStartsWith line2 (jstr "#") = false := by
      rw [eR, (by decide : jstr "#" = '#' :: [])]
      exact notStartsWith_append g ':' '#' _ _ hgh2 (by decide)
    have hbTF : jStartsWith line2 (jstr "The following") = false := by
      cases hq : jStartsWith line2 (jstr "The following") with
      | false => rfl
      | true =>
        exfalso
        obtain ⟨t, ht⟩ := jStartsWith_exists _ _ hq
        have w1 : line2.takeWhile (fun c => c ≠ ':') = g := by
          rw [eR]
          refine takeWhile_append_stop _ g _ (fun c hc => by simp [(hgc c hc).1]) ?_
          intro c hc
          simp only [List.head?_cons, Option.some.injEq] at hc
          rw [← hc]
          decide
        have w2 : line2.takeWhile (fun c => c ≠ ':')
            = jstr "The following" ++ t.takeWhile (fun c => c ≠ ':') := by
          rw [ht]
          exact takeWhile_all_append _ _ t (by decide)
        have hsp : (' ' : Char) ∈ g := by
          rw [← w1, w2]
          exact List.mem_append_left _ (by decide)
        have := hgws ' ' hsp
        simp [isJsWs] at this
    have hparts : splitOnChar ':' line2 = [g, a, jstr "jar", v, scope] := by
      rw [eR,
        splitOnChar_append_sep ':' g _ (fun c hc => (hgc c hc).1),
        splitOnChar_append_sep ':' a _ (fun c hc => (hac c hc).1),
        splitOnChar_append_sep ':' (jstr "jar") _ (by decide),
        splitOnChar_append_sep ':' v _ (fun c hc => (hvc c hc).1),
        splitOnChar_sepFree ':' scope hscc]
    simp only [parseMavenRawDependency, htrim]
    rw [if_neg (by simp [hnn, hb1, hb2, hbTF])]
    rw [hparts]
    rw [if_pos (by simp)]
    simp [List.getD]

/-- Witness for C8 at the spec's guava example. -/
theorem maven_roundtrip_witness :
    parseMavenDependencyLine
        (jstr "maven/mavencentral/com.google.guava/guava/32.1.2-jre")
      = some (jstr "guava@32.1.2-jre") ∧
    parseMavenRawDependency (jstr "com.google.guava:guava:jar:32.1.2-jre:compile")
      = some (jstr "guava@32.1.2-jre") := by
  have h := maven_roundtrip (jstr "com.google.guava") (jstr "guava")
    (jstr "32.1.2-jre") (jstr "compile") (by decide) (by decide) (by decide)
    (by decide) (by decide) (by decide) (by decide) (by decide) (by decide)
  have e2 : jstr "guava" ++ jstr "@" ++ jstr "32.1.2-jre"
      = jstr "guava@32.1.2-jre" := by decide
  constructor
  · have e : jstr "maven/mavencentral/" ++ jstr "com.google.guava" ++ jstr "/" ++
        jstr "guava" ++ jstr "/" ++ jstr "32.1.2-jre"
        = jstr "maven/mavencentral/com.google.guava/guava/32.1.2-jre" := by decide
    rw [← e, ← e2]
    exact h.1
  · have e : jstr "com.google.guava" ++ jstr ":" ++ jstr "guava" ++ jstr ":jar:" ++
        jstr "32.1.2-jre" ++ jstr ":" ++ jstr "compile"
        = jstr "com.google.guava:guava:jar:32.1.2-jre:compile" := by decide
    rw [← e, ← e2]
    exact h.2

theorem splitCommaSpace_ne_nil : ∀ s : JStr, splitCommaSpace s ≠ []
  | [] => by simp [splitCommaSpace]
  | c :: rest => by
    rw [splitCommaSpace.eq_def]
    dsimp only
    by_cases h : c = ','
    · rw [if_pos h]
      cases rest with
      | nil => simp
      | cons d r => by_cases hd : isJsWs d <;> simp [hd]
    · rw [if_neg h]
      cases hs : splitCommaSpace rest <;> simp

theorem splitCommaSpace_cons (c : Char) (s : JStr) (f : JStr) (fs : List JStr)
    (hc : c ≠ ',') (hs : splitCommaSpace s = f :: fs) :
    splitCommaSpace (c :: s) = (c :: f) :: fs := by
  rw [splitCommaSpace.eq_def]
  dsimp only
  cases s with
  | nil =>
    simp only [splitCommaSpace] at hs
    rw [if_neg hc]
    obtain ⟨h1, h2⟩ := List.cons.inj hs
    subst h1
    subst h2
    simp [splitCommaSpace]
  | cons d s' => rw [if_neg hc, hs]

theorem splitCommaSpace_cq (x f : JStr) (fs : List JStr)
    (hs : splitCommaSpace x = f :: fs) :
    splitCommaSpace (jstr "cq/" ++ x) = (jstr "cq/" ++ f) :: fs := by
  have e : jstr "cq/" = 'c' :: 'q' :: '/' :: [] := by decide
  have h1 := splitCommaSpace_cons '/' x f fs (by decide) hs
  have h2 := splitCommaSpace_cons 'q' ('/' :: x) ('/' :: f) fs (by decide) h1
  have h3 := splitCommaSpace_cons 'c' ('q' :: '/' :: x) ('q' :: '/' :: f) fs
    (by decide) h2
  rw [e]
  simpa using h3

theorem splitOnChar_cq (f : JStr) :
    splitOnChar '/' (jstr "cq/" ++ f) = jstr "cq" :: splitOnChar '/' f := by
  have e : jstr "cq/" ++ f = jstr "cq" ++ '/' :: f := by
    rw [(by decide : jstr "cq/" = jstr "cq" ++ ['/'])]
    simp
  rw [e, splitOnChar_append_sep '/' (jstr "cq") f (by decide)]

theorem normalizeParts_cq (parts : List JStr) (hlen : parts.length ≥ 5)
    (hcq : parts.head? ≠ some (jstr "cq")) :
    normalizeParts (jstr "cq" :: parts) = normalizeParts parts := by
  have e3 : (jstr "cq" :: parts).get? 3 = parts.get? 2 := rfl
  have e4 : (jstr "cq" :: parts).get? 4 = parts.get? 3 := rfl
  have e5 : (jstr "cq" :: parts).get? 5 = parts.get? 4 := rfl
  unfold normalizeParts
  rw [if_pos (by simp only [List.length_cons]; omega), if_pos hlen]
  simp only [List.head?_cons, if_pos rfl, if_neg hcq]
  norm_num [e3, e4, e5]


theorem licenseStep_cq (lm : JsMap LicenseInfo) (f : JStr) (fs : List JStr)
    (hlen : (splitOnChar '/' f).length ≥ 5)
    (hcq : (splitOnChar '/' f).head? ≠ some (jstr "cq")) :
    licenseStep lm ((jstr "cq/" ++ f) :: fs) = licenseStep lm (f :: fs) := by
  unfold licenseStep
  dsimp only
  simp only [List.length_cons]
  by_cases h2 : fs.length + 1 ≥ 2
  · rw [if_pos h2, if_pos h2]
    have ga : (((jstr "cq/" ++ f) :: fs).getD 0 []) = jstr "cq/" ++ f := rfl
    have gb : (((jstr "cq/" ++ f) :: fs).getD 1 []) = ((f :: fs).getD 1 []) := rfl
    have gc : ((f :: fs).getD 0 []) = f := rfl
    rw [ga, gb, gc, splitOnChar_cq, normalizeParts_cq (splitOnChar '/' f) hlen hcq]
  · rw [if_neg h2, if_neg h2]

theorem approvalStep_cq (st : ApprState) (f : JStr) (fs : List JStr)
    (hlen : (splitOnChar '/' f).length ≥ 5)
    (hcq : (splitOnChar '/' f).head? ≠ some (jstr "cq")) :
    approvalStep st ((jstr "cq/" ++ f) :: fs) = approvalStep st (f :: fs) := by
  unfold approvalStep
  dsimp only
  simp only [List.length_cons]
  by_cases h4 : fs.length + 1 ≥ 4
  · rw [if_pos h4, if_pos h4]
    have ga : (((jstr "cq/" ++ f) :: fs).getD 0 []) = jstr "cq/" ++ f := rfl
    have gb : (((jstr "cq/" ++ f) :: fs).getD 3 []) = ((f :: fs).getD 3 []) := rfl
    have gc : ((f :: fs).getD 0 []) = f := rfl
    rw [ga, gb, gc, splitOnChar_cq, normalizeParts_cq (splitOnChar '/' f) hlen hcq]
  · rw [if_neg h4, if_neg h4]

/-- C7: a legacy ledger line `cq/X` and the new-format line `X` are parsed
identically by `parseDependenciesFile` whenever `X`'s coordinate splits into
at least five segments and does not itself begin with a `cq` segment (as any
scoped or unscoped npm coordinate does). -/
theorem legacy_cq_equiv (x : JStr) (m : JsMap JStr)
    (lm : Option (JsMap LicenseInfo)) (st : LoggerState)
    (hnl : ∀ c ∈ x, c ≠ '\n')
    (hlen : (splitOnChar '/' ((splitCommaSpace x).getD 0 [])).length ≥ 5)
    (hcq : (splitOnChar '/' ((splitCommaSpace x).getD 0 [])).head?
        ≠ some (jstr "cq")) :
    parseDependenciesFile (jstr "cq/" ++ x) m lm st
      = parseDependenciesFile x m lm st := by
  obtain ⟨f, fs, hf⟩ : ∃ f fs, splitCommaSpace x = f :: fs := by
    cases h : splitCommaSpace x with
    | nil => exact absurd h (splitCommaSpace_ne_nil x)
    | cons f fs => exact ⟨f, fs, rfl⟩
  have hf0 : (splitCommaSpace x).getD 0 [] = f := by rw [hf]; rfl
  rw [hf0] at hlen hcq
  have hxne : x ≠ [] := by
    intro hx
    subst hx
    simp only [splitCommaSpace] at hf
    obtain ⟨h1, _⟩ := List.cons.inj hf
    rw [← h1] at hlen
    simp [splitOnChar] at hlen
  have hcqx : jstr "cq/" ++ x ≠ [] := by
    rw [(by decide : jstr "cq/" = 'c' :: 'q' :: '/' :: [])]
    simp
  have hl1 : splitLines x = [x] := by
    unfold splitLines
    rw [splitOnChar_sepFree '\n' x hnl]
    rfl
  have hq : ∀ c ∈ jstr "cq/", c ≠ '\n' := by decide
  have hnl2 : ∀ c ∈ jstr "cq/" ++ x, c ≠ '\n' := by
    intro c hc
    rcases List.mem_append.mp hc with h | h
    · exact hq c h
    · exact hnl c h
  have hl2 : splitLines (jstr "cq/" ++ x) = [jstr "cq/" ++ x] := by
    unfold splitLines
    rw [splitOnChar_sepFree '\n' _ hnl2]
    rfl
  have hfields1 : ledgerFields x = [f :: fs] := by
    unfold ledgerFields
    rw [hl1]
    simp [hxne, hf]
  have hfields2 : ledgerFields (jstr "cq/" ++ x) = [(jstr "cq/" ++ f) :: fs] := by
    unfold ledgerFields
    rw [hl2]
    simp [hcqx, splitCommaSpace_cq x f fs hf]
  unfold parseDependenciesFile
  rw [hfields1, hfields2]
  dsimp only
  have hls : (fun lmm => List.foldl licenseStep lmm [(jstr "cq/" ++ f) :: fs])
      = (fun lmm => List.foldl licenseStep lmm [f :: fs]) := by
    funext lmm
    simp only [List.foldl_cons, List.foldl_nil]
    exact licenseStep_cq lmm f fs hlen hcq
  rw [hls]
  have hget2 : ((jstr "cq/" ++ f) :: fs).get? 2 = (f :: fs).get? 2 := rfl
  by_cases hp : (f :: fs).get? 2 = some (jstr "approved")
  · have hp' : fs[1]? = some (jstr "approved") := by
      simpa [List.get?_eq_getElem?] using hp
    have hfa : List.filter (fun ff => ff.get? 2 = some (jstr "approved"))
        [(jstr "cq/" ++ f) :: fs] = [(jstr "cq/" ++ f) :: fs] := by
      simp [List.get?_eq_getElem?, hp']
    have hfb : List.filter (fun ff => ff.get? 2 = some (jstr "approved"))
        [f :: fs] = [f :: fs] := by
      simp [List.get?_eq_getElem?, hp']
    rw [hfa, hfb]
    simp only [List.foldl_cons, List.foldl_nil]
    rw [approvalStep_cq _ f fs hlen hcq]
  · have hp' : ¬ fs[1]? = some (jstr "approved") := by
      simpa [List.get?_eq_getElem?] using hp
    have hfa : List.filter (fun ff => ff.get? 2 = some (jstr "approved"))
        [(jstr "cq/" ++ f) :: fs] = [] := by
      simp [List.get?_eq_getElem?, hp']
    have hfb : List.filter (fun ff => ff.get? 2 = some (jstr "approved"))
        [f :: fs] = [] := by
      simp [List.get?_eq_getElem?, hp']
    rw [hfa, hfb]

/-- Witness for C7 at the spec's react example: the legacy and new-format
lines parse to identical results, mapping `react@18.0.0` to the
clearlydefined link. -/
theorem legacy_cq_equiv_witness :
    parseDependenciesFile
        (jstr "cq/npm/npmjs/-/react/18.0.0,MIT,approved,clearlydefined")
        JsMap.empty (some JsMap.empty) ⟨[], 0⟩
      = parseDependenciesFile
        (jstr "npm/npmjs/-/react/18.0.0,MIT,approved,clearlydefined")
        JsMap.empty (some JsMap.empty) ⟨[], 0⟩ ∧
    (parseDependenciesFile
        (jstr "npm/npmjs/-/react/18.0.0,MIT,approved,clearlydefined")
        JsMap.empty (some JsMap.empty) ⟨[], 0⟩).depsMap.get? (jstr "react@18.0.0")
      = some (jstr
        "[clearlydefined](https://clearlydefined.io/definitions/npm/npmjs/-/react/18.0.0)") := by
  constructor
  · have h := legacy_cq_equiv
      (jstr "npm/npmjs/-/react/18.0.0,MIT,approved,clearlydefined")
      JsMap.empty (some JsMap.empty) ⟨[], 0⟩ (by decide) (by decide) (by decide)
    have e : jstr "cq/" ++ jstr "npm/npmjs/-/react/18.0.0,MIT,approved,clearlydefined"
        = jstr "cq/npm/npmjs/-/react/18.0.0,MIT,approved,clearlydefined" := by decide
    rw [← e]
    exact h
  · decide

/-! ### Claim C1: fold invariants of the approval pass -/

theorem approvalStep_preserve (st : ApprState) (fields : List JStr) (id v : JStr)
    (h : st.m.get? id = some v) :
    (approvalStep st fields).m.get? id = some v := by
  unfold approvalStep
  split
  · dsimp only
    split
    · rename_i sc nm ver ident heq
      split
      · exact h
      · rename_i hh
        have hne : ident ≠ id := fun he =>
          hh (by rw [he]; exact JsMap.has_of_get? st.m id v h)
        split
        · exact (JsMap.get?_set_ne st.m ident id _ hne).trans h
        · exact (JsMap.get?_set_ne st.m ident id _ hne).trans h
    · exact h
  · exact h

theorem foldl_approval_preserve (l : List (List JStr)) (st : ApprState)
    (id v : JStr) (h : st.m.get? id = some v) :
    (l.foldl approvalStep st).m.get? id = some v := by
  induction l generalizing st with
  | nil => exact h
  | cons g l' ih =>
    exact ih (approvalStep st g) (approvalStep_preserve st g id v h)

theorem approvalStep_log_extend (st : ApprState) (fields : List JStr) :
    ∃ app, (approvalStep st fields).log = st.log ++ app := by
  unfold approvalStep
  split
  · dsimp only
    split
    · rename_i sc nm ver ident heq
      split
      · exact ⟨unusedEntry (st.n + 1) ident, rfl⟩
      · split
        · exact ⟨[], by simp⟩
        · exact ⟨[], by simp⟩
    · exact ⟨[], by simp⟩
  · exact ⟨[], by simp⟩

theorem approvalStep_n_mono (st : ApprState) (fields : List JStr) :
    st.n ≤ (approvalStep st fields).n := by
  unfold approvalStep
  split
  · dsimp only
    split
    · rename_i sc nm ver ident heq
      split
      · exact Nat.le_succ _
      · split
        · exact Nat.le_refl _
        · exact Nat.le_refl _
    · exact Nat.le_refl _
  · exact Nat.le_refl _

theorem foldl_approval_log_extend (l : List (List JStr)) (st : ApprState) :
    ∃ app, (l.foldl approvalStep st).log = st.log ++ app := by
  induction l generalizing st with
  | nil => exact ⟨[], by simp⟩
  | cons g l' ih =>
    obtain ⟨a1, h1⟩ := approvalStep_log_extend st g
    obtain ⟨a2, h2⟩ := ih (approvalStep st g)
    exact ⟨a1 ++ a2, by rw [List.foldl_cons, h2, h1, List.append_assoc]⟩

theorem foldl_approval_n_mono (l : List (List JStr)) (st : ApprState) :
    st.n ≤ (l.foldl approvalStep st).n := by
  induction l generalizing st with
  | nil => exact Nat.le_refl _
  | cons g l' ih =>
    exact Nat.le_trans (approvalStep_n_mono st g) (ih (approvalStep st g))

theorem approvalStep_unused (st : ApprState) (fields : List JStr)
    (id v sc nm ver : JStr) (hpre : st.m.get? id = some v)
    (hlen : fields.length ≥ 4)
    (hnorm : normalizeParts (splitOnChar '/' (fields.getD 0 []))
        = some (sc, nm, ver, id)) :
    approvalStep st fields
      = { st with log := st.log ++ unusedEntry (st.n + 1) id, n := st.n + 1 } := by
  unfold approvalStep
  rw [if_pos hlen]
  dsimp only
  rw [hnorm]
  dsimp only
  rw [if_pos (JsMap.has_of_get? st.m id v hpre)]

theorem foldl_approval_unused (l : List (List JStr)) (fields : List JStr)
    (id v sc nm ver : JStr) (hmem : fields ∈ l) (hlen : fields.length ≥ 4)
    (hnorm : normalizeParts (splitOnChar '/' (fields.getD 0 []))
        = some (sc, nm, ver, id)) :
    ∀ st : ApprState, st.m.get? id = some v →
      (∃ mid post k, 1 ≤ k ∧
        (l.foldl approvalStep st).log
          = st.log ++ mid ++ unusedEntry k id ++ post) ∧
      0 < (l.foldl approvalStep st).n := by
  induction l with
  | nil => cases hmem
  | cons g l' ih =>
    intro st hst
    rcases List.mem_cons.mp hmem with hg | hg
    · subst hg
      rw [List.foldl_cons, approvalStep_unused st fields id v sc nm ver hst hlen hnorm]
      obtain ⟨app, happ⟩ := foldl_approval_log_extend l'
        { st with log := st.log ++ unusedEntry (st.n + 1) id, n := st.n + 1 }
      constructor
      · refine ⟨[], app, st.n + 1, by omega, ?_⟩
        rw [happ]
        simp [List.append_assoc]
      · have := foldl_approval_n_mono l'
          { st with log := st.log ++ unusedEntry (st.n + 1) id, n := st.n + 1 }
        simp only at this
        omega
    · rw [List.foldl_cons]
      obtain ⟨hlog, hn⟩ := ih hg (approvalStep st g)
        (approvalStep_preserve st g id v hst)
      obtain ⟨a0, ha0⟩ := approvalStep_log_extend st g
      obtain ⟨mid, post, k, hk, hl2⟩ := hlog
      refine ⟨⟨a0 ++ mid, post, k, hk, ?_⟩, hn⟩
      rw [hl2, ha0]
      simp [List.append_assoc]

/-- C1: when `parseDependenciesFile` processes an approved ledger line
whose coordinate normalizes to an identifier pre-seeded in the approval
map, the pre-existing value survives unchanged and the global log gains,
under the `## UNUSED Excludes` heading, a 1-based numbered entry quoting
the identifier in backticks. -/
theorem unusedExclude_detection (fileData : JStr) (m : JsMap JStr)
    (lm : Option (JsMap LicenseInfo)) (st : LoggerState)
    (line id v sc nm ver : JStr)
    (hpre : m.get? id = some v)
    (hline : line ∈ splitLines fileData)
    (hlen : (splitCommaSpace line).length ≥ 4)
    (hstat : (splitCommaSpace line).get? 2 = some (jstr "approved"))
    (hnorm : normalizeParts (splitOnChar '/' ((splitCommaSpace line).getD 0 []))
        = some (sc, nm, ver, id)) :
    (parseDependenciesFile fileData m lm st).depsMap.get? id = some v ∧
    ∃ mid post k, 1 ≤ k ∧
      (parseDependenciesFile fileData m lm st).logger.logs
        = st.logs ++ jstr "\n## UNUSED Excludes\n" ++ mid
            ++ unusedEntry k id ++ post := by
  have hlne : line ≠ [] := by
    intro he
    rw [he] at hlen
    simp [splitCommaSpace] at hlen
  have hmem1 : line ∈ (splitLines fileData).filter (fun l => l ≠ []) :=
    List.mem_filter.mpr ⟨hline, by simpa using hlne⟩
  have hmem2 : splitCommaSpace line ∈ ledgerFields fileData :=
    List.mem_map_of_mem splitCommaSpace hmem1
  have hmem3 : splitCommaSpace line ∈ (ledgerFields fileData).filter
      (fun f => f.get? 2 = some (jstr "approved")) :=
    List.mem_filter.mpr ⟨hmem2, by simpa using hstat⟩
  have hsize : m.size > 0 := JsMap.size_pos_of_get? m id v hpre
  have hlog0 : (if m.size > 0 then jstr "\n## UNUSED Excludes\n" else ([] : JStr))
      = jstr "\n## UNUSED Excludes\n" := if_pos hsize
  set approved := (ledgerFields fileData).filter
    (fun f => f.get? 2 = some (jstr "approved")) with happr
  have hinit : (⟨m, jstr "\n## UNUSED Excludes\n", 0⟩ : ApprState).m.get? id
      = some v := hpre
  have hmain := foldl_approval_unused approved (splitCommaSpace line) id v sc nm ver
    hmem3 hlen hnorm ⟨m, jstr "\n## UNUSED Excludes\n", 0⟩ hinit
  have hpres := foldl_approval_preserve approved
    ⟨m, jstr "\n## UNUSED Excludes\n", 0⟩ id v hinit
  obtain ⟨⟨mid, post, k, hk, hlog⟩, hn⟩ := hmain
  unfold parseDependenciesFile
  dsimp only
  rw [hlog0, ← happr]
  constructor
  · exact hpres
  · refine ⟨mid, post ++ jstr "\n", k, hk, ?_⟩
    rw [if_pos (by simpa using hn)]
    unfold addLog
    dsimp only
    rw [hlog]
    simp [List.append_assoc]

/-- Witness for C1 at the spec's unused-exclude scenario: map pre-seeded
with a manual approval for `react@18.0.0`, legacy approved ledger line. -/
theorem unusedExclude_detection_witness :
    (parseDependenciesFile
        (jstr "cq/npm/npmjs/-/react/18.0.0,MIT,approved,clearlydefined")
        ⟨[(jstr "react@18.0.0", jstr "Manual approval")]⟩ none
        ⟨[], 0⟩).depsMap.get? (jstr "react@18.0.0")
      = some (jstr "Manual approval") ∧
    ∃ mid post k, 1 ≤ k ∧
      (parseDependenciesFile
          (jstr "cq/npm/npmjs/-/react/18.0.0,MIT,approved,clearlydefined")
          ⟨[(jstr "react@18.0.0", jstr "Manual approval")]⟩ none
          ⟨[], 0⟩).logger.logs
        = [] ++ jstr "\n## UNUSED Excludes\n" ++ mid
            ++ unusedEntry k (jstr "react@18.0.0") ++ post :=
  unusedExclude_detection
    (jstr "cq/npm/npmjs/-/react/18.0.0,MIT,approved,clearlydefined")
    ⟨[(jstr "react@18.0.0", jstr "Manual approval")]⟩ none ⟨[], 0⟩
    (jstr "cq/npm/npmjs/-/react/18.0.0,MIT,approved,clearlydefined")
    (jstr "react@18.0.0") (jstr "Manual approval") (jstr "-") (jstr "react")
    (jstr "18.0.0") (by decide) (by decide) (by decide) (by decide) (by decide)

/-- The (identifier, stored-license) pair that a ledger line contributes to
the license map, if any (license pass, source lines 113-149). -/
def licenseEntryFor (fields : List JStr) : Option (JStr × JStr) :=
  if fields.length ≥ 2 then
    match normalizeParts (splitOnChar '/' (fields.getD 0 [])) with
    | some (_, _, _, ident) =>
      some (ident, if fields.getD 1 [] ≠ [] then jsTrim (fields.getD 1 []) else [])
    | none => none
  else none

theorem licenseStep_eq_entry (lm : JsMap LicenseInfo) (fields : List JStr) :
    licenseStep lm fields
      = match licenseEntryFor fields with
        | some e => lm.set e.1 ⟨e.2, none⟩
        | none => lm := by
  unfold licenseStep licenseEntryFor
  split
  · dsimp only
    split
    · rfl
    · rfl
  · rfl

theorem foldl_license_lastWrite :
    ∀ (ds : List (List JStr)) (lm : JsMap LicenseInfo) (id : JStr),
      (ds.foldl licenseStep lm).get? id
        = match ((ds.filterMap licenseEntryFor).filter
            (fun e => e.1 = id)).getLast? with
          | some e => some ⟨e.2, none⟩
          | none => lm.get? id
  | [], lm, id => by simp
  | f :: ds', lm, id => by
    rw [List.foldl_cons, foldl_license_lastWrite ds' (licenseStep lm f) id]
    rw [licenseStep_eq_entry lm f, List.filterMap_cons]
    cases he : licenseEntryFor f with
    | none => rfl
    | some e =>
      dsimp only
      rw [List.filter_cons]
      by_cases hid : e.1 = id
      · rw [if_pos (by simpa using hid)]
        cases hM : ((ds'.filterMap licenseEntryFor).filter
            (fun e => e.1 = id)).getLast? with
        | some e' =>
          rw [List.getLast?_cons, hM]
          rfl
        | none =>
          rw [List.getLast?_eq_none_iff] at hM
          rw [hM]
          simp only [List.getLast?_singleton]
          rw [hid]
          rw [JsMap.get?_set_self]
      · rw [if_neg (by simpa using hid)]
        cases hM : ((ds'.filterMap licenseEntryFor).filter
            (fun e => e.1 = id)).getLast? with
        | some e' => rfl
        | none =>
          dsimp only
          rw [JsMap.get?_set_ne lm e.1 id _ hid]

/-- C6 counterexample: a pre-seeded record with non-empty license `MIT` and
a URL is wholesale-overwritten to an empty license and no URL by a ledger
line whose license field is blank. -/
theorem license_never_erases_cex :
    (⟨[(jstr "react@18.0.0", ⟨jstr "MIT", some (jstr "https://reactjs.org")⟩)]⟩ :
        JsMap LicenseInfo).get? (jstr "react@18.0.0")
      = some ⟨jstr "MIT", some (jstr "https://reactjs.org")⟩ ∧
    (parseDependenciesFile (jstr "npm/npmjs/-/react/18.0.0,,approved,clearlydefined")
        JsMap.empty
        (some ⟨[(jstr "react@18.0.0", ⟨jstr "MIT", some (jstr "https://reactjs.org")⟩)]⟩)
        ⟨[], 0⟩).licenses
      = some ⟨[(jstr "react@18.0.0", ⟨[], none⟩)]⟩ := by
  constructor
  · decide
  · decide

/-- C6 (amended): the license pass overwrites wholesale with last-line-wins
semantics: an identifier with no contributing ledger line keeps its prior
record unchanged; otherwise its final record holds the last contributing
line's (possibly empty) trimmed license and no URL. -/
theorem license_last_write (fileData : JStr) (m : JsMap JStr)
    (lm : JsMap LicenseInfo) (st : LoggerState) (id : JStr) :
    ∃ lm', (parseDependenciesFile fileData m (some lm) st).licenses = some lm' ∧
      (((ledgerFields fileData).filterMap licenseEntryFor).filter
          (fun e => e.1 = id) = [] → lm'.get? id = lm.get? id) ∧
      (∀ e, (((ledgerFields fileData).filterMap licenseEntryFor).filter
          (fun e => e.1 = id)).getLast? = some e →
        lm'.get? id = some ⟨e.2, none⟩) := by
  refine ⟨(ledgerFields fileData).foldl licenseStep lm, rfl, ?_, ?_⟩
  · intro h
    rw [foldl_license_lastWrite, h]
    rfl
  · intro e he
    rw [foldl_license_lastWrite, he]

/-- Witness for C6's amended theorem: a single approved line with license
field `MIT` leaves `react@18.0.0` with record ⟨MIT, no URL⟩. -/
theorem license_last_write_witness :
    ∃ lm', (parseDependenciesFile (jstr "npm/npmjs/-/react/18.0.0,MIT,approved,x")
        JsMap.empty (some JsMap.empty) ⟨[], 0⟩).licenses = some lm' ∧
      lm'.get? (jstr "react@18.0.0") = some ⟨jstr "MIT", none⟩ := by
  obtain ⟨lm', h1, _, h3⟩ := license_last_write
    (jstr "npm/npmjs/-/react/18.0.0,MIT,approved,x") JsMap.empty JsMap.empty
    ⟨[], 0⟩ (jstr "react@18.0.0")
  exact ⟨lm', h1, h3 (jstr "react@18.0.0", jstr "MIT") (by decide)⟩

/-! ### Claims C9 and C4: accounting of the report classifier -/

theorem rowStep_document (m : JsMap JStr) (lm : JsMap LicenseInfo)
    (st : DocState) (item : JStr) :
    (rowStep m lm st item).document = st.document ++ rowFor m lm item := by
  unfold rowStep
  split <;> rfl

theorem rowStep_counter (m : JsMap JStr) (lm : JsMap LicenseInfo)
    (st : DocState) (item : JStr) :
    (rowStep m lm st item).logger.unresolvedNumber
      = st.logger.unresolvedNumber + (if m.has item then 0 else 1) := by
  unfold rowStep
  split
  · exact (Nat.add_zero st.logger.unresolvedNumber).symm
  · rfl

theorem foldl_row_document (m : JsMap JStr) (lm : JsMap LicenseInfo) :
    ∀ (l : List JStr) (st : DocState),
      (l.foldl (rowStep m lm) st).document
        = st.document ++ (l.map (rowFor m lm)).flatten
  | [], st => by simp
  | item :: l', st => by
    rw [List.foldl_cons, foldl_row_document m lm l' (rowStep m lm st item),
      rowStep_document]
    simp [List.append_assoc]

theorem foldl_row_counter (m : JsMap JStr) (lm : JsMap LicenseInfo) :
    ∀ (l : List JStr) (st : DocState),
      (l.foldl (rowStep m lm) st).logger.unresolvedNumber
        = st.logger.unresolvedNumber + l.countP (fun i => !(m.has i))
  | [], st => by simp
  | item :: l', st => by
    rw [List.foldl_cons, foldl_row_counter m lm l' (rowStep m lm st item),
      rowStep_counter, List.countP_cons]
    by_cases h : m.has item = true
    · simp [h]
    · simp only [Bool.not_eq_true] at h
      simp [h]
      omega

theorem arrayToDocument_document (title : JStr) (deps : List JStr)
    (m : JsMap JStr) (lm : JsMap LicenseInfo) (st : LoggerState) :
    (arrayToDocument title deps m lm st).document
      = docHeader title ++ ((jsSortStrings deps).map (rowFor m lm)).flatten := by
  unfold arrayToDocument
  dsimp only
  rw [foldl_row_document]

theorem arrayToDocument_counter (title : JStr) (deps : List JStr)
    (m : JsMap JStr) (lm : JsMap LicenseInfo) (st : LoggerState) :
    (arrayToDocument title deps m lm st).logger.unresolvedNumber
      = st.unresolvedNumber + deps.countP (fun i => !(m.has i)) := by
  unfold arrayToDocument
  dsimp only
  have hc := foldl_row_counter m lm (jsSortStrings deps)
    ⟨docHeader title, jstr "\n## UNRESOLVED " ++ title ++ jstr "\n", 0, st⟩
  have hperm : (jsSortStrings deps).countP (fun i => !(m.has i))
      = deps.countP (fun i => !(m.has i)) :=
    (jsSortStrings_perm deps).countP_eq _
  split
  · unfold addLog
    dsimp only
    rw [hc, hperm]
  · rw [hc, hperm]

theorem lookupA_mem {α : Type} :
    ∀ (es : List (JStr × α)) (k : JStr) (v : α),
      lookupA es k = some v → (k, v) ∈ es
  | [], k, v, h => by cases h
  | (k', v') :: rest, k, v, h => by
    unfold lookupA at h
    by_cases he : k' = k
    · rw [if_pos he] at h
      cases h
      rw [he]
      exact List.mem_cons_self _ _
    · rw [if_neg he] at h
      exact List.mem_cons_of_mem _ (lookupA_mem rest k v h)

theorem countP_id_eq_one :
    ∀ (l : List JStr) (id : JStr), l.Nodup → id ∈ l →
      l.countP (fun x => x = id) = 1
  | [], id, _, hm => by cases hm
  | a :: l', id, hnd, hm => by
    rw [List.countP_cons]
    by_cases hai : a = id
    · have hz : l'.countP (fun x => x = id) = 0 := by
        rw [List.countP_eq_zero]
        intro b hb
        simp only [decide_eq_true_eq]
        intro hbid
        refine (List.nodup_cons.mp hnd).1 ?_
        rw [hai, ← hbid]
        exact hb
      simp [hz, hai]
    · have hmem : id ∈ l' := by
        rcases List.mem_cons.mp hm with h | h
        · exact absurd h.symm hai
        · exact h
      have h1 := countP_id_eq_one l' id (List.nodup_cons.mp hnd).2 hmem
      simp [h1, hai]

/-- C9 counterexample: with the approval map storing the empty string for
`react@18.0.0`, the generated document has one row whose Resolved CQs cell
is empty, yet nothing is added to the unresolved counter. -/
theorem classifier_empty_cq_cex :
    (arrayToDocument (jstr "T") [jstr "react@18.0.0"]
        ⟨[(jstr "react@18.0.0", [])]⟩ JsMap.empty ⟨[], 0⟩).logger.unresolvedNumber
      = 0 ∧
    (arrayToDocument (jstr "T") [jstr "react@18.0.0"]
        ⟨[(jstr "react@18.0.0", [])]⟩ JsMap.empty ⟨[], 0⟩).document
      = jstr "# T\n\n| Packages | License | Resolved CQs |\n| --- | --- | --- |\n| `react@18.0.0` |  |  |\n" := by
  constructor
  · decide
  · decide

/-- C9 (amended): for N distinct identifiers the document is the header
followed by exactly one row per identifier (N rows, each identifier in
exactly one position of the sorted row order), and the amount added to the
unresolved counter equals the number of identifiers absent from the
approval map — which equals the number of rows with an empty Resolved CQs
cell whenever every stored approval reference is non-empty. -/
theorem classifier_accounting (title : JStr) (deps : List JStr)
    (m : JsMap JStr) (lm : JsMap LicenseInfo) (st : LoggerState)
    (hnd : deps.Nodup) :
    (arrayToDocument title deps m lm st).document
      = docHeader title ++ ((jsSortStrings deps).map (rowFor m lm)).flatten ∧
    (jsSortStrings deps).length = deps.length ∧
    (∀ id ∈ deps, (jsSortStrings deps).countP (fun x => x = id) = 1) ∧
    (arrayToDocument title deps m lm st).logger.unresolvedNumber
      = st.unresolvedNumber + deps.countP (fun i => !(m.has i)) ∧
    ((∀ e ∈ m.entries, e.2 ≠ ([] : JStr)) →
      deps.countP (fun i => !(m.has i))
        = (jsSortStrings deps).countP (fun i => cqCell m i = [])) := by
  refine ⟨arrayToDocument_document title deps m lm st,
    (jsSortStrings_perm deps).length_eq, ?_,
    arrayToDocument_counter title deps m lm st, ?_⟩
  · intro id hid
    rw [(jsSortStrings_perm deps).countP_eq]
    exact countP_id_eq_one deps id hnd hid
  · intro hval
    rw [(jsSortStrings_perm deps).countP_eq]
    apply List.countP_congr
    intro i _
    unfold cqCell
    cases hg : m.get? i with
    | none =>
      simp [JsMap.has, hg]
    | some w =>
      have hw : w ≠ [] := hval (i, w) (lookupA_mem m.entries i w hg)
      simp [JsMap.has, hg, hw]

/-- Witness for C9's amended theorem at a concrete two-identifier input. -/
theorem classifier_accounting_witness :
    (arrayToDocument (jstr "T") [jstr "b@1", jstr "a@1"]
        ⟨[(jstr "a@1", jstr "CQ1")]⟩ JsMap.empty ⟨[], 0⟩).document
      = docHeader (jstr "T") ++
        (([jstr "a@1", jstr "b@1"]).map
          (rowFor ⟨[(jstr "a@1", jstr "CQ1")]⟩ JsMap.empty)).flatten ∧
    (arrayToDocument (jstr "T") [jstr "b@1", jstr "a@1"]
        ⟨[(jstr "a@1", jstr "CQ1")]⟩ JsMap.empty ⟨[], 0⟩).logger.unresolvedNumber
      = 0 + 1 ∧
    ([jstr "b@1", jstr "a@1"]).countP
        (fun i => !((⟨[(jstr "a@1", jstr "CQ1")]⟩ : JsMap JStr).has i))
      = ([jstr "a@1", jstr "b@1"]).countP
        (fun i => cqCell ⟨[(jstr "a@1", jstr "CQ1")]⟩ i = []) := by
  have h := classifier_accounting (jstr "T") [jstr "b@1", jstr "a@1"]
    ⟨[(jstr "a@1", jstr "CQ1")]⟩ JsMap.empty ⟨[], 0⟩ (by decide)
  obtain ⟨h1, _, _, h4, h5⟩ := h
  refine ⟨?_, ?_, ?_⟩
  · rw [h1, (by decide : jsSortStrings [jstr "b@1", jstr "a@1"]
      = [jstr "a@1", jstr "b@1"])]
  · rw [h4]
    decide
  · rw [h5 (by decide), (by decide : jsSortStrings [jstr "b@1", jstr "a@1"]
      = [jstr "a@1", jstr "b@1"])]

theorem parse_unresolved_const (fileData : JStr) (m : JsMap JStr)
    (lm : Option (JsMap LicenseInfo)) (st : LoggerState) :
    (parseDependenciesFile fileData m lm st).logger.unresolvedNumber
      = st.unresolvedNumber := by
  unfold parseDependenciesFile
  dsimp only
  split <;> split <;> rfl

/-- C4: in a completed run of `processAndGenerateDocuments`, both report
generations add their counts of identifiers missing from the shared
approval map to one cumulative unresolved counter, and the run exits with
code 1 exactly when that cumulative count is positive. -/
theorem unresolved_gate (prodDeps devDeps : List JStr)
    (allDeps : JsMap LicenseInfo) (ep ed : Option JStr) (d : JStr)
    (hne : jsTrim d ≠ []) :
    (processAndGenerateDocuments prodDeps devDeps allDeps ep ed
        (some d)).logger.unresolvedNumber
      = prodDeps.countP (fun i =>
          !((parseDependenciesFile d (seedExclusions ep ed) (some allDeps)
            ⟨[], 0⟩).depsMap.has i))
        + devDeps.countP (fun i =>
          !((parseDependenciesFile d (seedExclusions ep ed) (some allDeps)
            ⟨[], 0⟩).depsMap.has i)) ∧
    ((processAndGenerateDocuments prodDeps devDeps allDeps ep ed
        (some d)).exitCode = some 1 ↔
      0 < prodDeps.countP (fun i =>
          !((parseDependenciesFile d (seedExclusions ep ed) (some allDeps)
            ⟨[], 0⟩).depsMap.has i))
        + devDeps.countP (fun i =>
          !((parseDependenciesFile d (seedExclusions ep ed) (some allDeps)
            ⟨[], 0⟩).depsMap.has i))) := by
  unfold processAndGenerateDocuments
  dsimp only
  rw [if_neg hne]
  dsimp only
  set pr := parseDependenciesFile d (seedExclusions ep ed) (some allDeps) ⟨[], 0⟩
    with hpr
  have hcount : (arrayToDocument (jstr "Development dependencies") devDeps
      pr.depsMap (pr.licenses.getD JsMap.empty)
      (arrayToDocument (jstr "Production dependencies") prodDeps pr.depsMap
        (pr.licenses.getD JsMap.empty) pr.logger).logger).logger.unresolvedNumber
      = prodDeps.countP (fun i => !(pr.depsMap.has i))
        + devDeps.countP (fun i => !(pr.depsMap.has i)) := by
    rw [arrayToDocument_counter, arrayToDocument_counter,
      parse_unresolved_const]
    dsimp only
    omega
  constructor
  · exact hcount
  · rw [hcount]
    constructor
    · intro hx
      by_contra hc
      rw [if_neg (by omega)] at hx
      cases hx
    · intro hx
      rw [if_pos (by omega)]
  
/-- Witness for C4 at the spec's end-to-end scenario shape: one resolved
production dependency, one unknown development dependency; the counter is
1 and the run fails with exit code 1. -/
theorem unresolved_gate_witness :
    (processAndGenerateDocuments [jstr "lodash@4.17.21"] [jstr "unknown-pkg@9.9.9"]
        JsMap.empty none none
        (some (jstr "npm/npmjs/-/lodash/4.17.21,MIT,approved,clearlydefined"))).logger.unresolvedNumber
      = 1 ∧
    (processAndGenerateDocuments [jstr "lodash@4.17.21"] [jstr "unknown-pkg@9.9.9"]
        JsMap.empty none none
        (some (jstr "npm/npmjs/-/lodash/4.17.21,MIT,approved,clearlydefined"))).exitCode
      = some 1 := by
  have h := unresolved_gate [jstr "lodash@4.17.21"] [jstr "unknown-pkg@9.9.9"]
    JsMap.empty none none
    (jstr "npm/npmjs/-/lodash/4.17.21,MIT,approved,clearlydefined") (by decide)
  constructor
  · rw [h.1]
    decide
  · exact h.2.mpr (by decide)

/-- C5: evaluation at the failing input.  The yarn3 adapter parses the
ledger *before* loading the development exclusion file, so a development
override that the ledger also resolves produces no `UNUSED Excludes`
diagnostic (the log stays empty) and silently replaces the ledger-derived
approval; the shared `processAndGenerateDocuments` pipeline on the same
inputs loads both exclusion files first and does report the unused
exclude. -/
theorem yarn3_late_dev_excludes :
    (yarn3BumpDeps ⟨[(jstr "react@18.0.0", ⟨jstr "MIT", none⟩)]⟩
        none (some (jstr "| `react@18.0.0` | Dev manual |"))
        (jstr "npm/npmjs/-/react/18.0.0,MIT,approved,clearlydefined")
        []).logger.logs = [] ∧
    (yarn3BumpDeps ⟨[(jstr "react@18.0.0", ⟨jstr "MIT", none⟩)]⟩
        none (some (jstr "| `react@18.0.0` | Dev manual |"))
        (jstr "npm/npmjs/-/react/18.0.0,MIT,approved,clearlydefined")
        []).approvalMap.get? (jstr "react@18.0.0") = some (jstr "Dev manual") ∧
    (processAndGenerateDocuments [] [jstr "react@18.0.0"]
        ⟨[(jstr "react@18.0.0", ⟨jstr "MIT", none⟩)]⟩
        none (some (jstr "| `react@18.0.0` | Dev manual |"))
        (some (jstr "npm/npmjs/-/react/18.0.0,MIT,approved,clearlydefined"))).logger.logs
      = jstr "\n## UNUSED Excludes\n\n1. `react@18.0.0`\n" := by
  refine ⟨?_, ?_, ?_⟩
  · decide
  · decide
  · decide
